import Mathlib

/-!
Verification of the Support/Resistance Zone Detection and Sticky Level-Tracking
Engine (`src/domain/etl/analyzers/breakout_analyzer.py`).

The embedding below translates the analyzer into Lean:
* prices are rationals (the Python floats are only compared and averaged on
  finite data, so the ordered-field behaviour is what matters);
* `NaN`/missing values become `Option`;
* pandas stable sorts (`np.sort`, `DataFrame.sort_values`, `list.sort(key=...)`)
  are modelled by `List.insertionSort`, which is a stable sort; a stable sort is
  determined uniquely by the (pre)order used, so this agrees with the source;
* the ATR(14) indicator series is supplied as a function parameter
  `atr : Nat → ℚ` (the spec's §9 "narrow capability interface"); the band
  computation (mode selection, multiplier, `clip(lower=min_band_abs)`) is
  embedded faithfully on top of it.
-/

namespace BreakoutAnalyzer

/-- One OHLC candle (`High`, `Low`, `Close` columns of the input frame). -/
structure Candle where
  high : ℚ
  low : ℚ
  close : ℚ
deriving DecidableEq, Repr, Inhabited

/-- Direction of a breakout search: `"up"` (resistance) or `"down"` (support). -/
inductive Direction where
  | up
  | down
deriving DecidableEq, Repr

/-- `band_mode` parameter: `"pct"` or `"atr"`. -/
inductive BandMode where
  | pct
  | atr
deriving DecidableEq, Repr

/-- Recognized timeframe labels (`_ALLOWED_TF`), plus the `unknown` fallback the
constructor substitutes for unrecognized strings. -/
inductive TF where
  | s1 | m1 | m5 | m15 | h1 | h4 | d1 | w1 | mn1 | unknown
deriving DecidableEq, Repr

/-- Analyzer configuration after `__init__` normalisation (the constructor
clamps `confirmation_candles ≥ 1`, `merge_breaks_min_sep ≥ 0`,
`level_tol_pct ≥ 0`, `hysteresis_ratio ≥ 0`; the theorems below quantify over
arbitrary field values, a superset of the reachable states). -/
structure Config where
  timeframe : TF
  pivotWindow : Nat
  maxZones : Nat
  useCloseOnly : Bool
  confirmationCandles : Nat
  bandMode : BandMode
  bandPct : ℚ
  bandAtrMult : ℚ
  mergeBreaksMinSep : Nat
  minBandAbs : ℚ
  levelTolPct : ℚ
  hysteresisRatio : ℚ
  enablePolarity : Bool
  polarityCooldown : Nat
  eternalPolarity : Bool
deriving Repr

/-- The immutable `Zone` dataclass: `type` is `-1` (support) or `+1`
(resistance); the active interval is `[x0, x1]`, inclusive. -/
structure Zone where
  type : Int
  value : ℚ
  x0 : Int
  x1 : Int
  count : Nat
  isReversal : Bool
deriving DecidableEq, Repr, Inhabited

/-! ### Breakout scanner (`_find_break_index`) -/

/-- The per-candle band: the raw band value for mode/level, then
`clip(lower=min_band_abs)` as in `_find_break_index`. -/
def bandAt (cfg : Config) (atr : Nat → ℚ) (level : ℚ) (edgePct : ℚ) (i : Nat) : ℚ :=
  let raw := match cfg.bandMode with
    | BandMode.atr => atr i * cfg.bandAtrMult
    | BandMode.pct => level * edgePct
  max raw cfg.minBandAbs

/-- Reference price at index `i`: `close` when `use_close_only`, else the
`high` (direction up) or `low` (direction down). -/
def refPrice (cfg : Config) (candles : List Candle) (dir : Direction) (i : Nat) : ℚ :=
  let c := candles.getD i default
  if cfg.useCloseOnly then c.close
  else match dir with
    | Direction.up => c.high
    | Direction.down => c.low

/-- The "broken" test of `_find_break_index` at candle `i`:
`price > level + band` (up) or `price < level - band` (down). -/
def brokenAt (cfg : Config) (candles : List Candle) (atr : Nat → ℚ) (level : ℚ)
    (dir : Direction) (edgePct : ℚ) (i : Nat) : Bool :=
  let band := bandAt cfg atr level edgePct i
  let price := refPrice cfg candles dir i
  match dir with
  | Direction.up => decide (level + band < price)
  | Direction.down => decide (price < level - band)

/-- The scanning loop of `_find_break_index`: iterate `i` upward carrying the
consecutive-break counter `c`; on a broken candle increment, and return `some i`
once the counter reaches `K`; reset the counter to `0` otherwise.  `fuel` is
`n - i`, so running out of fuel is exactly falling off the end of the range. -/
def breakLoop (broken : Nat → Bool) (K : Nat) : Nat → Nat → Nat → Option Nat
  | 0, _, _ => none
  | fuel + 1, i, c =>
    if broken i then
      if K ≤ c + 1 then some i else breakLoop broken K fuel (i + 1) (c + 1)
    else breakLoop broken K fuel (i + 1) 0

/-- `_find_break_index` over an abstract broken-candle predicate: if
`start ≥ n` return `n - 1`; otherwise scan `i = start..n-1`; on confirmation at
`i` return `max start (i - K)`; if never confirmed return `n - 1`. -/
def findBreakFrom (broken : Nat → Bool) (n K start : Nat) : Int :=
  if n ≤ start then (n : Int) - 1
  else
    match breakLoop broken K (n - start) start 0 with
    | some i => max (start : Int) ((i : Int) - (K : Int))
    | none => (n : Int) - 1

/-- `_find_break_index` itself, with the band/price selection of the source. -/
def findBreakIndex (cfg : Config) (candles : List Candle) (atr : Nat → ℚ) (level : ℚ)
    (dir : Direction) (start : Nat) (edgePct : ℚ) (K : Nat) : Int :=
  findBreakFrom (brokenAt cfg candles atr level dir edgePct) candles.length K start

/-! ### Declarative characterisation of the scanner (from the spec's words) -/

/-- Modelled from the spec: the consecutive-break counter "reaches `K` at `i`"
iff the `K` candles `i-K+1..i` all break and the whole run lies in the scanned
range (`start + K ≤ i + 1`). -/
def confirmB (broken : Nat → Bool) (start K i : Nat) : Bool :=
  decide (start + K ≤ i + 1) && (List.range K).all fun d => broken (i - d)

/-- Modelled from the spec: the first position at or after `i` (within `fuel`
more candles) where the counter reaches `K`. -/
def firstConfirm (broken : Nat → Bool) (start K : Nat) : Nat → Nat → Option Nat
  | _, 0 => none
  | i, fuel + 1 =>
    if confirmB broken start K i then some i else firstConfirm broken start K (i + 1) fuel

/-- Modelled from the spec (§4.5): return `max(start, i₀ - K)` for the first
`i₀` where the counter reaches `K`, else `N - 1`. -/
def findBreakSpec (broken : Nat → Bool) (n K start : Nat) : Int :=
  match firstConfirm broken start K start (n - start) with
  | some i => max (start : Int) ((i : Int) - (K : Int))
  | none => (n : Int) - 1

/-- Length of the maximal consecutive-broken run ending just before candle
`start + m` (and starting no earlier than `start`): the value of the loop
counter of `_find_break_index` when it reaches candle `start + m`. -/
def runLen (broken : Nat → Bool) (start : Nat) : Nat → Nat
  | 0 => 0
  | m + 1 => if broken (start + m) then runLen broken start m + 1 else 0

theorem runLen_succ (broken : Nat → Bool) (start m : Nat) :
    runLen broken start (m + 1) = if broken (start + m) then runLen broken start m + 1 else 0 :=
  rfl

theorem runLen_le (broken : Nat → Bool) (start : Nat) : ∀ m, runLen broken start m ≤ m := by
  intro m
  induction m with
  | zero => simp [runLen]
  | succ m ih =>
    unfold runLen
    split
    · omega
    · omega

theorem runLen_broken (broken : Nat → Bool) (start : Nat) :
    ∀ m d, d < runLen broken start m → broken (start + m - 1 - d) = true := by
  intro m
  induction m with
  | zero => simp [runLen]
  | succ m ih =>
    intro d hd
    unfold runLen at hd
    by_cases hb : broken (start + m) = true
    · rw [if_pos hb] at hd
      cases d with
      | zero => simpa using hb
      | succ d =>
        have h1 : d < runLen broken start m := by omega
        have := ih d h1
        have he : start + (m + 1) - 1 - (d + 1) = start + m - 1 - d := by omega
        rw [he]
        exact this
    · rw [if_neg hb] at hd
      omega

theorem runLen_ge (broken : Nat → Bool) (start : Nat) :
    ∀ k m, k ≤ m → (∀ d, d < k → broken (start + m - 1 - d) = true) →
      k ≤ runLen broken start m := by
  intro k
  induction k with
  | zero => intro m _ _; omega
  | succ k ih =>
    intro m hkm hbr
    cases m with
    | zero => omega
    | succ m =>
      have hb : broken (start + m) = true := by
        have := hbr 0 (by omega)
        simpa using this
      unfold runLen
      rw [if_pos hb]
      have : k ≤ runLen broken start m := by
        apply ih m (by omega)
        intro d hd
        have := hbr (d + 1) (by omega)
        have he : start + (m + 1) - 1 - (d + 1) = start + m - 1 - d := by omega
        rw [he] at this
        exact this
      omega

/-- `confirmB` at `i` is equivalent to the counter value (the run length)
reaching `K` upon processing candle `i`. -/
theorem confirmB_iff_runLen (broken : Nat → Bool) (start K i : Nat) (hs : start ≤ i) :
    confirmB broken start K i = true ↔ K ≤ runLen broken start (i + 1 - start) := by
  unfold confirmB
  rw [Bool.and_eq_true, decide_eq_true_iff, List.all_eq_true]
  constructor
  · rintro ⟨h1, h2⟩
    apply runLen_ge broken start K (i + 1 - start) (by omega)
    intro d hd
    have := h2 d (List.mem_range.mpr hd)
    have he : start + (i + 1 - start) - 1 - d = i - d := by omega
    rw [he]
    exact this
  · intro h
    constructor
    · have := runLen_le broken start (i + 1 - start)
      omega
    · intro d hd
      rw [List.mem_range] at hd
      have := runLen_broken broken start (i + 1 - start) d (by omega)
      have he : start + (i + 1 - start) - 1 - d = i - d := by omega
      rw [he] at this
      exact this

/-- Core loop correctness: when entered at candle `i` with the counter equal to
the current run length (still below `K`), the loop finds exactly the first
confirmation position. -/
theorem breakLoop_eq_firstConfirm (broken : Nat → Bool) (K start : Nat) (hK : 1 ≤ K) :
    ∀ fuel i, start ≤ i → runLen broken start (i - start) < K →
      breakLoop broken K fuel i (runLen broken start (i - start)) =
        firstConfirm broken start K i fuel := by
  intro fuel
  induction fuel with
  | zero => intro i _ _; rfl
  | succ fuel ih =>
    intro i hs hlt
    have hstep : i + 1 - start = (i - start) + 1 := by omega
    have hbase : start + (i - start) = i := by omega
    by_cases hb : broken i = true
    · have hrun : runLen broken start (i + 1 - start) = runLen broken start (i - start) + 1 := by
        rw [hstep, runLen_succ, hbase, if_pos hb]
      by_cases hge : K ≤ runLen broken start (i - start) + 1
      · have hconf : confirmB broken start K i = true := by
          rw [confirmB_iff_runLen broken start K i hs, hrun]
          omega
        unfold breakLoop firstConfirm
        rw [if_pos hb, if_pos hge, if_pos hconf]
      · have hconf : ¬ confirmB broken start K i = true := by
          rw [confirmB_iff_runLen broken start K i hs, hrun]
          omega
        unfold breakLoop firstConfirm
        rw [if_pos hb, if_neg hge, if_neg hconf]
        have hlt2 : runLen broken start (i + 1 - start) < K := by omega
        have := ih (i + 1) (by omega) hlt2
        rw [hrun] at this
        exact this
    · have hb' : broken i = false := by simpa using hb
      have hrun : runLen broken start (i + 1 - start) = 0 := by
        rw [hstep, runLen_succ, hbase, hb']
        simp
      have hconf : ¬ confirmB broken start K i = true := by
        rw [confirmB_iff_runLen broken start K i hs, hrun]
        omega
      unfold breakLoop firstConfirm
      rw [hb', if_neg hconf]
      simp only [Bool.false_eq_true, if_false]
      have hlt2 : runLen broken start (i + 1 - start) < K := by omega
      have := ih (i + 1) (by omega) hlt2
      rw [hrun] at this
      exact this

theorem breakLoop_some_lt (broken : Nat → Bool) (K : Nat) :
    ∀ fuel i c j, breakLoop broken K fuel i c = some j → i ≤ j ∧ j < i + fuel := by
  intro fuel
  induction fuel with
  | zero => intro i c j h; simp [breakLoop] at h
  | succ fuel ih =>
    intro i c j h
    unfold breakLoop at h
    by_cases hb : broken i = true
    · rw [if_pos hb] at h
      by_cases hge : K ≤ c + 1
      · rw [if_pos hge] at h
        have : i = j := by simpa using h
        omega
      · rw [if_neg hge] at h
        have := ih (i + 1) (c + 1) j h
        omega
    · rw [if_neg hb] at h
      have := ih (i + 1) 0 j h
      omega

/-- The scanner agrees with its declarative characterisation: starting in range
with `K ≥ 1`, it returns `max(start, i₀ − K)` for the first position `i₀` at
which the consecutive-break counter reaches `K`, and `n − 1` if there is none. -/
theorem findBreakFrom_eq_spec (broken : Nat → Bool) (n K s : Nat)
    (hs : s < n) (hK : 1 ≤ K) :
    findBreakFrom broken n K s = findBreakSpec broken n K s := by
  unfold findBreakFrom findBreakSpec
  rw [if_neg (by omega)]
  have hzero : runLen broken s (s - s) = 0 := by
    rw [Nat.sub_self]
    rfl
  have h := breakLoop_eq_firstConfirm broken K s hK (n - s) s le_rfl (by rw [hzero]; omega)
  rw [hzero] at h
  rw [h]

/-- CLAIM C1 — Breakout scanner contract.  For every candle series, level,
direction, per-candle band (mode, ATR series, edge percentage, minimum band),
start index in range and confirmation count `K ≥ 1`, `_find_break_index`
returns `max(start, i₀ − K)` for the first position `i₀` where the
consecutive-break counter (price beyond `level ± band(i)`, reset on any
non-breaking candle) reaches `K`, and `N − 1` when the counter never
reaches `K`. -/
theorem find_break_index_contract (cfg : Config) (candles : List Candle) (atr : Nat → ℚ)
    (level : ℚ) (dir : Direction) (s : Nat) (edgePct : ℚ) (K : Nat)
    (hs : s < candles.length) (hK : 1 ≤ K) :
    findBreakIndex cfg candles atr level dir s edgePct K =
      findBreakSpec (brokenAt cfg candles atr level dir edgePct) candles.length K s :=
  findBreakFrom_eq_spec _ _ _ _ hs hK

theorem findBreakFrom_bounds (broken : Nat → Bool) (n K s : Nat) (hn : 1 ≤ n) :
    0 ≤ findBreakFrom broken n K s ∧ findBreakFrom broken n K s ≤ (n : Int) - 1 ∧
      (s < n → (s : Int) ≤ findBreakFrom broken n K s) := by
  unfold findBreakFrom
  by_cases hns : n ≤ s
  · rw [if_pos hns]
    refine ⟨by omega, le_refl _, ?_⟩
    intro h
    omega
  · rw [if_neg hns]
    rcases hloop : breakLoop broken K (n - s) s 0 with _ | j
    · simp only [hloop]
      exact ⟨by omega, le_refl _, fun _ => by omega⟩
    · have hj := breakLoop_some_lt broken K (n - s) s 0 j hloop
      simp only [hloop]
      refine ⟨?_, ?_, ?_⟩
      · have : (s : Int) ≤ max (s : Int) ((j : Int) - (K : Int)) := le_max_left _ _
        omega
      · apply max_le
        · omega
        · omega
      · intro _
        exact le_max_left _ _

/-- CLAIM C10 — Scanner totality and range.  For every series of length
`n ≥ 1` and arbitrary arguments, `_find_break_index` returns `r` with
`0 ≤ r ≤ n − 1`, and `r ≥ start` whenever `start ≤ n − 1`; in particular it
never returns `-1`, so the `y1 == -1` fallback in `_build_zones` is
unreachable. -/
theorem find_break_index_total (cfg : Config) (candles : List Candle) (atr : Nat → ℚ)
    (level : ℚ) (dir : Direction) (s : Nat) (edgePct : ℚ) (K : Nat)
    (hn : 1 ≤ candles.length) :
    0 ≤ findBreakIndex cfg candles atr level dir s edgePct K ∧
      findBreakIndex cfg candles atr level dir s edgePct K ≤ (candles.length : Int) - 1 ∧
      (s < candles.length →
        (s : Int) ≤ findBreakIndex cfg candles atr level dir s edgePct K) :=
  findBreakFrom_bounds _ _ _ _ hn

/-! ### Concrete instances for witnesses and Scenario B -/

/-- A percentage-band configuration used for concrete evaluations. -/
def cfgPct : Config :=
  { timeframe := TF.unknown, pivotWindow := 1, maxZones := 3, useCloseOnly := false,
    confirmationCandles := 1, bandMode := BandMode.pct, bandPct := 10, bandAtrMult := 1,
    mergeBreaksMinSep := 0, minBandAbs := 1 / 1000000000000, levelTolPct := 1,
    hysteresisRatio := 1 / 4, enablePolarity := false, polarityCooldown := 0,
    eternalPolarity := false }

/-- Degenerate ATR series (the percentage mode never reads it). -/
def atrZ : Nat → ℚ := fun _ => 0

/-- Scenario B series: 41 candles, highs at `100` until the upward break
candles `38, 39, 40` at `102`, against a resistance level `100` with a 1% band. -/
def candlesB : List Candle :=
  List.replicate 38 ⟨100, 100, 100⟩ ++ List.replicate 3 ⟨102, 100, 100⟩

def candlesSmall : List Candle :=
  [⟨100, 100, 100⟩, ⟨102, 100, 100⟩, ⟨102, 100, 100⟩]

/-- CLAIM C1 witness: the contract evaluated on a concrete 3-candle series. -/
theorem find_break_index_contract_witness :
    0 < candlesSmall.length ∧ 1 ≤ 2 ∧
      findBreakIndex cfgPct candlesSmall atrZ 100 Direction.up 0 (1 / 100) 2 =
        findBreakSpec (brokenAt cfgPct candlesSmall atrZ 100 Direction.up (1 / 100))
          candlesSmall.length 2 0 :=
  ⟨by norm_num [candlesSmall], by norm_num,
    find_break_index_contract cfgPct candlesSmall atrZ 100 Direction.up 0 (1 / 100) 2
      (by norm_num [candlesSmall]) (by norm_num)⟩

/-- CLAIM C10 witness: range bounds evaluated on a concrete 3-candle series. -/
theorem find_break_index_total_witness :
    1 ≤ candlesSmall.length ∧
      (0 ≤ findBreakIndex cfgPct candlesSmall atrZ 100 Direction.up 1 (1 / 100) 2 ∧
        findBreakIndex cfgPct candlesSmall atrZ 100 Direction.up 1 (1 / 100) 2 ≤
          (candlesSmall.length : Int) - 1 ∧
        (1 < candlesSmall.length →
          (1 : Int) ≤ findBreakIndex cfgPct candlesSmall atrZ 100 Direction.up 1 (1 / 100) 2)) :=
  ⟨by norm_num [candlesSmall],
    find_break_index_total cfgPct candlesSmall atrZ 100 Direction.up 1 (1 / 100) 2
      (by norm_num [candlesSmall])⟩

set_option maxHeartbeats 1000000 in
/-- CLAIM C2 counterexample.  On a series realising Scenario B exactly — a
resistance level 100 with a 1% band, first breaking candle at position 38, the
consecutive-break counter first reaching `K = 3` at position 40, scan started at
0 — `_find_break_index` does *not* return `max(0, 38−3) = 35`: it backdates from
the confirmation candle 40, not from the first breaking candle 38. -/
theorem scenario_b_counterexample :
    brokenAt cfgPct candlesB atrZ 100 Direction.up (1 / 100) 37 = false ∧
    brokenAt cfgPct candlesB atrZ 100 Direction.up (1 / 100) 38 = true ∧
    brokenAt cfgPct candlesB atrZ 100 Direction.up (1 / 100) 39 = true ∧
    brokenAt cfgPct candlesB atrZ 100 Direction.up (1 / 100) 40 = true ∧
    firstConfirm (brokenAt cfgPct candlesB atrZ 100 Direction.up (1 / 100)) 0 3 0 41 =
      some 40 ∧
    findBreakIndex cfgPct candlesB atrZ 100 Direction.up 0 (1 / 100) 3 ≠ 35 := by
  refine ⟨?_, ?_, ?_, ?_, ?_, ?_⟩ <;>
    norm_num [findBreakIndex, findBreakFrom, breakLoop, firstConfirm, confirmB, brokenAt,
      bandAt, refPrice, cfgPct, candlesB, atrZ, List.replicate, max_def, List.range_succ]

set_option maxHeartbeats 1000000 in
/-- CLAIM C2 amended.  On the Scenario B series the scanner returns
`max(0, 40 − 3) = 37`: the backdating subtracts `K` from the position where the
counter reaches `K` (the confirmation candle 40), which lands on position 37,
just before the break began. -/
theorem scenario_b_amended :
    findBreakIndex cfgPct candlesB atrZ 100 Direction.up 0 (1 / 100) 3 =
      max 0 ((40 : Int) - 3) := by
  norm_num [findBreakIndex, findBreakFrom, breakLoop, brokenAt, bandAt, refPrice, cfgPct,
    candlesB, atrZ, List.replicate, max_def]

/-! ### Pivot detection (`_detect_pivots`) -/

def highList (candles : List Candle) : List ℚ := candles.map Candle.high

def lowList (candles : List Candle) : List ℚ := candles.map Candle.low

def closeList (candles : List Candle) : List ℚ := candles.map Candle.close

/-- Maximum of a list of prices (`none` on the empty list). -/
def windowMax : List ℚ → Option ℚ
  | [] => none
  | x :: xs => some (xs.foldl max x)

/-- Minimum of a list of prices (`none` on the empty list). -/
def windowMin : List ℚ → Option ℚ
  | [] => none
  | x :: xs => some (xs.foldl min x)

/-- The candle window `[i-w, i+w]` of a price series. -/
def windowSlice (xs : List ℚ) (w i : Nat) : List ℚ := (xs.drop (i - w)).take (2 * w + 1)

/-- `Series.rolling(2*w+1, center=True).max()` at position `i`: `NaN` (`none`)
unless the full window `[i-w, i+w]` lies inside the series. -/
def rollingCenterMax (xs : List ℚ) (w i : Nat) : Option ℚ :=
  if w ≤ i ∧ i + w < xs.length then windowMax (windowSlice xs w i) else none

def rollingCenterMin (xs : List ℚ) (w i : Nat) : Option ℚ :=
  if w ≤ i ∧ i + w < xs.length then windowMin (windowSlice xs w i) else none

/-- `_detect_pivots` at position `i`: `isPivot` starts at `0`; positions where
the rolling max equals the high are set to `1`; positions where the rolling min
equals the low are then set to `-1`; conflict positions are finally reset
to `0`. -/
def isPivotAt (candles : List Candle) (w i : Nat) : Int :=
  let ph := decide (rollingCenterMax (highList candles) w i = some ((highList candles).getD i 0))
  let pl := decide (rollingCenterMin (lowList candles) w i = some ((lowList candles).getD i 0))
  let v0 : Int := 0
  let v1 := if ph then 1 else v0
  let v2 := if pl then -1 else v1
  if ph && pl then 0 else v2

theorem foldl_max_mem (xs : List ℚ) : ∀ x : ℚ, xs.foldl max x = x ∨ xs.foldl max x ∈ xs := by
  induction xs with
  | nil => intro x; left; rfl
  | cons y ys ih =>
    intro x
    rcases ih (max x y) with h | h
    · rcases max_choice x y with hm | hm
      · left; rw [List.foldl_cons, h, hm]
      · right; rw [List.foldl_cons, h, hm]; exact List.mem_cons_self _ _
    · right; exact List.mem_cons_of_mem _ h

theorem le_foldl_max (xs : List ℚ) :
    ∀ x : ℚ, x ≤ xs.foldl max x ∧ ∀ y ∈ xs, y ≤ xs.foldl max x := by
  induction xs with
  | nil => intro x; exact ⟨le_refl _, by simp⟩
  | cons z zs ih =>
    intro x
    obtain ⟨h1, h2⟩ := ih (max x z)
    refine ⟨le_trans (le_max_left _ _) h1, ?_⟩
    intro y hy
    rcases List.mem_cons.mp hy with rfl | hy
    · exact le_trans (le_max_right _ _) h1
    · exact h2 y hy

theorem windowMax_eq_some_iff (l : List ℚ) (m : ℚ) :
    windowMax l = some m ↔ m ∈ l ∧ ∀ a ∈ l, a ≤ m := by
  cases l with
  | nil => simp [windowMax]
  | cons x xs =>
    simp only [windowMax, Option.some_inj]
    constructor
    · rintro rfl
      obtain ⟨h1, h2⟩ := le_foldl_max xs x
      refine ⟨?_, ?_⟩
      · rcases foldl_max_mem xs x with h | h
        · rw [h]; exact List.mem_cons_self _ _
        · exact List.mem_cons_of_mem _ h
      · intro a ha
        rcases List.mem_cons.mp ha with rfl | ha
        · exact h1
        · exact h2 a ha
    · rintro ⟨hm, hub⟩
      obtain ⟨h1, h2⟩ := le_foldl_max xs x
      apply le_antisymm
      · rcases foldl_max_mem xs x with h | h
        · rw [h]; exact hub x (List.mem_cons_self _ _)
        · exact hub _ (List.mem_cons_of_mem _ h)
      · rcases List.mem_cons.mp hm with rfl | h
        · exact h1
        · exact h2 m h

theorem foldl_min_mem (xs : List ℚ) : ∀ x : ℚ, xs.foldl min x = x ∨ xs.foldl min x ∈ xs := by
  induction xs with
  | nil => intro x; left; rfl
  | cons y ys ih =>
    intro x
    rcases ih (min x y) with h | h
    · rcases min_choice x y with hm | hm
      · left; rw [List.foldl_cons, h, hm]
      · right; rw [List.foldl_cons, h, hm]; exact List.mem_cons_self _ _
    · right; exact List.mem_cons_of_mem _ h

theorem foldl_min_le (xs : List ℚ) :
    ∀ x : ℚ, xs.foldl min x ≤ x ∧ ∀ y ∈ xs, xs.foldl min x ≤ y := by
  induction xs with
  | nil => intro x; exact ⟨le_refl _, by simp⟩
  | cons z zs ih =>
    intro x
    obtain ⟨h1, h2⟩ := ih (min x z)
    refine ⟨le_trans h1 (min_le_left _ _), ?_⟩
    intro y hy
    rcases List.mem_cons.mp hy with rfl | hy
    · exact le_trans h1 (min_le_right _ _)
    · exact h2 y hy

theorem windowMin_eq_some_iff (l : List ℚ) (m : ℚ) :
    windowMin l = some m ↔ m ∈ l ∧ ∀ a ∈ l, m ≤ a := by
  cases l with
  | nil => simp [windowMin]
  | cons x xs =>
    simp only [windowMin, Option.some_inj]
    constructor
    · rintro rfl
      obtain ⟨h1, h2⟩ := foldl_min_le xs x
      refine ⟨?_, ?_⟩
      · rcases foldl_min_mem xs x with h | h
        · rw [h]; exact List.mem_cons_self _ _
        · exact List.mem_cons_of_mem _ h
      · intro a ha
        rcases List.mem_cons.mp ha with rfl | ha
        · exact h1
        · exact h2 a ha
    · rintro ⟨hm, hub⟩
      obtain ⟨h1, h2⟩ := foldl_min_le xs x
      apply le_antisymm
      · rcases List.mem_cons.mp hm with rfl | h
        · exact h1
        · exact h2 m h
      · rcases foldl_min_mem xs x with h | h
        · rw [h]; exact hub x (List.mem_cons_self _ _)
        · exact hub _ (List.mem_cons_of_mem _ h)

theorem mem_windowSlice_iff (xs : List ℚ) (w i : Nat) (h1 : w ≤ i) (h2 : i + w < xs.length)
    (a : ℚ) :
    a ∈ windowSlice xs w i ↔ ∃ j, i - w ≤ j ∧ j ≤ i + w ∧ xs.getD j 0 = a := by
  unfold windowSlice
  have hdlen : (xs.drop (i - w)).length = xs.length - (i - w) := List.length_drop _ _
  have hslen : ((xs.drop (i - w)).take (2 * w + 1)).length = 2 * w + 1 := by
    rw [List.length_take, hdlen]
    omega
  rw [List.mem_iff_getElem]
  constructor
  · rintro ⟨k, hk, hval⟩
    rw [hslen] at hk
    refine ⟨i - w + k, by omega, by omega, ?_⟩
    have hkd : i - w + k < xs.length := by omega
    rw [List.getElem_take, List.getElem_drop] at hval
    rw [List.getD_eq_getElem xs 0 hkd]
    exact hval
  · rintro ⟨j, hj1, hj2, hval⟩
    refine ⟨j - (i - w), by rw [hslen]; omega, ?_⟩
    rw [List.getElem_take, List.getElem_drop]
    have hjd : j < xs.length := by omega
    rw [List.getD_eq_getElem xs 0 hjd] at hval
    have hidx : i - w + (j - (i - w)) = j := by omega
    simp only [hidx]
    exact hval

theorem rollingCenterMax_eq_self_iff (xs : List ℚ) (w i : Nat) :
    rollingCenterMax xs w i = some (xs.getD i 0) ↔
      w ≤ i ∧ i + w < xs.length ∧
        ∀ j, i - w ≤ j → j ≤ i + w → xs.getD j 0 ≤ xs.getD i 0 := by
  unfold rollingCenterMax
  by_cases hg : w ≤ i ∧ i + w < xs.length
  · rw [if_pos hg, windowMax_eq_some_iff]
    obtain ⟨h1, h2⟩ := hg
    constructor
    · rintro ⟨_, hub⟩
      refine ⟨h1, h2, ?_⟩
      intro j hj1 hj2
      exact hub _ ((mem_windowSlice_iff xs w i h1 h2 _).mpr ⟨j, hj1, hj2, rfl⟩)
    · rintro ⟨_, _, hub⟩
      constructor
      · exact (mem_windowSlice_iff xs w i h1 h2 _).mpr ⟨i, by omega, by omega, rfl⟩
      · intro a ha
        obtain ⟨j, hj1, hj2, hval⟩ := (mem_windowSlice_iff xs w i h1 h2 _).mp ha
        rw [← hval]
        exact hub j hj1 hj2
  · rw [if_neg hg]
    simp only [false_iff, reduceCtorEq]
    intro h
    exact hg ⟨h.1, h.2.1⟩

theorem rollingCenterMin_eq_self_iff (xs : List ℚ) (w i : Nat) :
    rollingCenterMin xs w i = some (xs.getD i 0) ↔
      w ≤ i ∧ i + w < xs.length ∧
        ∀ j, i - w ≤ j → j ≤ i + w → xs.getD i 0 ≤ xs.getD j 0 := by
  unfold rollingCenterMin
  by_cases hg : w ≤ i ∧ i + w < xs.length
  · rw [if_pos hg, windowMin_eq_some_iff]
    obtain ⟨h1, h2⟩ := hg
    constructor
    · rintro ⟨_, hub⟩
      refine ⟨h1, h2, ?_⟩
      intro j hj1 hj2
      exact hub _ ((mem_windowSlice_iff xs w i h1 h2 _).mpr ⟨j, hj1, hj2, rfl⟩)
    · rintro ⟨_, _, hub⟩
      constructor
      · exact (mem_windowSlice_iff xs w i h1 h2 _).mpr ⟨i, by omega, by omega, rfl⟩
      · intro a ha
        obtain ⟨j, hj1, hj2, hval⟩ := (mem_windowSlice_iff xs w i h1 h2 _).mp ha
        rw [← hval]
        exact hub j hj1 hj2
  · rw [if_neg hg]
    simp only [false_iff, reduceCtorEq]
    intro h
    exact hg ⟨h.1, h.2.1⟩

theorem highList_getD (candles : List Candle) (j : Nat) :
    (highList candles).getD j 0 = (candles.getD j default).high := by
  unfold highList
  rcases lt_or_ge j candles.length with h | h
  · rw [List.getD_eq_getElem _ 0 (by simpa using h), List.getD_eq_getElem _ default h,
      List.getElem_map]
  · rw [List.getD_eq_default _ 0 (by simpa using h), List.getD_eq_default _ default h]
    rfl

theorem lowList_getD (candles : List Candle) (j : Nat) :
    (lowList candles).getD j 0 = (candles.getD j default).low := by
  unfold lowList
  rcases lt_or_ge j candles.length with h | h
  · rw [List.getD_eq_getElem _ 0 (by simpa using h), List.getD_eq_getElem _ default h,
      List.getElem_map]
  · rw [List.getD_eq_default _ 0 (by simpa using h), List.getD_eq_default _ default h]
    rfl

/-- Modelled from the spec: position `i` is a high-pivot candidate when the
window fits and `high[i]` is the maximum high over `[i-w, i+w]`. -/
def highPivotCond (candles : List Candle) (w i : Nat) : Prop :=
  w ≤ i ∧ i + w < candles.length ∧
    ∀ j, i - w ≤ j → j ≤ i + w → (candles.getD j default).high ≤ (candles.getD i default).high

/-- Modelled from the spec: position `i` is a low-pivot candidate when the
window fits and `low[i]` is the minimum low over `[i-w, i+w]`. -/
def lowPivotCond (candles : List Candle) (w i : Nat) : Prop :=
  w ≤ i ∧ i + w < candles.length ∧
    ∀ j, i - w ≤ j → j ≤ i + w → (candles.getD i default).low ≤ (candles.getD j default).low

theorem rollMax_iff_highPivotCond (candles : List Candle) (w i : Nat) :
    rollingCenterMax (highList candles) w i = some ((highList candles).getD i 0) ↔
      highPivotCond candles w i := by
  rw [rollingCenterMax_eq_self_iff]
  unfold highPivotCond
  constructor
  · rintro ⟨a, b, c⟩
    refine ⟨a, by simpa [highList] using b, ?_⟩
    intro j h1 h2
    have := c j h1 h2
    rwa [highList_getD, highList_getD] at this
  · rintro ⟨a, b, c⟩
    refine ⟨a, by simpa [highList] using b, ?_⟩
    intro j h1 h2
    rw [highList_getD, highList_getD]
    exact c j h1 h2

theorem rollMin_iff_lowPivotCond (candles : List Candle) (w i : Nat) :
    rollingCenterMin (lowList candles) w i = some ((lowList candles).getD i 0) ↔
      lowPivotCond candles w i := by
  rw [rollingCenterMin_eq_self_iff]
  unfold lowPivotCond
  constructor
  · rintro ⟨a, b, c⟩
    refine ⟨a, by simpa [lowList] using b, ?_⟩
    intro j h1 h2
    have := c j h1 h2
    rwa [lowList_getD, lowList_getD] at this
  · rintro ⟨a, b, c⟩
    refine ⟨a, by simpa [lowList] using b, ?_⟩
    intro j h1 h2
    rw [lowList_getD, lowList_getD]
    exact c j h1 h2

/-- CLAIM C7 — Pivot labeling.  `_detect_pivots` labels position `i` with `1`
(high pivot) iff the window `[i-w, i+w]` fits inside the series, `high[i]` is
the window maximum of the highs, and `low[i]` is *not* the window minimum of
the lows; symmetrically for `-1` (low pivot); edge positions, positions
satisfying neither condition, and conflict positions get `0`. -/
theorem pivot_labeling (candles : List Candle) (w i : Nat) :
    (isPivotAt candles w i = 1 ↔ highPivotCond candles w i ∧ ¬ lowPivotCond candles w i) ∧
    (isPivotAt candles w i = -1 ↔ lowPivotCond candles w i ∧ ¬ highPivotCond candles w i) ∧
    (isPivotAt candles w i = 0 ↔
      ¬ (highPivotCond candles w i ∧ ¬ lowPivotCond candles w i) ∧
      ¬ (lowPivotCond candles w i ∧ ¬ highPivotCond candles w i)) := by
  have hH := rollMax_iff_highPivotCond candles w i
  have hL := rollMin_iff_lowPivotCond candles w i
  by_cases hP : rollingCenterMax (highList candles) w i = some ((highList candles).getD i 0) <;>
    by_cases hQ : rollingCenterMin (lowList candles) w i = some ((lowList candles).getD i 0) <;>
      [skip; skip; skip; skip] <;>
      (simp only [List.getD_eq_getElem?_getD] at hP hQ hH hL
       simp [isPivotAt, hP, hQ, ← hH, ← hL])

/-! ### Clustering (`_cluster_pivots`) -/

/-- `np.mean` of a list of prices. -/
def listMean (xs : List ℚ) : ℚ := xs.sum / (xs.length : ℚ)

/-- The greedy absorb/close loop of `_cluster_pivots`: walk the sorted values,
absorbing `v` into the current cluster when
`|v − mean(current)| / max(mean(current), 1e-9) ≤ thr`, otherwise closing the
current cluster and starting a new one with `v`. -/
def clusterLoop (thr : ℚ) : List ℚ → List (List ℚ) → List ℚ → List (List ℚ)
  | [], cs, cur => cs ++ [cur]
  | v :: rest, cs, cur =>
    if |v - listMean cur| / max (listMean cur) (1 / 1000000000) ≤ thr then
      clusterLoop thr rest cs (cur ++ [v])
    else clusterLoop thr rest (cs ++ [cur]) [v]

/-- `_cluster_pivots`: sort ascending, run the greedy loop, and return
`(mean, member count)` per cluster. -/
def clusterPivots (values : List ℚ) (clusterPct : ℚ) : List (ℚ × Nat) :=
  match values.insertionSort (· ≤ ·) with
  | [] => []
  | v :: rest =>
    (clusterLoop (clusterPct / 100) rest [] [v]).map fun c => (listMean c, c.length)

/-- The boundary fact recorded when a cluster is closed: the head of the next
cluster was rejected against the mean of the closed one. -/
def clusterGap (thr : ℚ) (A B : List ℚ) : Prop :=
  ¬ (|B.headD 0 - listMean A| / max (listMean A) (1 / 1000000000) ≤ thr)

theorem listMean_single (x : ℚ) : listMean [x] = x := by
  simp [listMean]

theorem le_listMean (xs : List ℚ) (hne : xs ≠ []) (a : ℚ) (h : ∀ x ∈ xs, a ≤ x) :
    a ≤ listMean xs := by
  have hl : 0 < (xs.length : ℚ) := by
    have := List.length_pos.mpr hne
    exact_mod_cast this
  rw [listMean, le_div_iff hl]
  have := List.card_nsmul_le_sum xs a h
  rwa [nsmul_eq_mul, mul_comm] at this

theorem listMean_le (xs : List ℚ) (hne : xs ≠ []) (b : ℚ) (h : ∀ x ∈ xs, x ≤ b) :
    listMean xs ≤ b := by
  have hl : 0 < (xs.length : ℚ) := by
    have := List.length_pos.mpr hne
    exact_mod_cast this
  rw [listMean, div_le_iff hl]
  have := List.sum_le_card_nsmul xs b h
  rwa [nsmul_eq_mul, mul_comm] at this

theorem headD_append (cur : List ℚ) (v : ℚ) (hne : cur ≠ []) :
    (cur ++ [v]).headD 0 = cur.headD 0 := by
  cases cur with
  | nil => exact absurd rfl hne
  | cons x xs => rfl

theorem headD_mem (xs : List ℚ) (hne : xs ≠ []) : xs.headD 0 ∈ xs := by
  cases xs with
  | nil => exact absurd rfl hne
  | cons x l => exact List.mem_cons_self _ _

/-- Loop invariant of `_cluster_pivots`: the output clusters are nonempty,
adjacent clusters carry the rejection fact, and the concatenation of the
output is the input. -/
theorem clusterLoop_spec (thr : ℚ) :
    ∀ rest cs cur, cur ≠ [] → (∀ A ∈ cs, A ≠ []) →
      List.Chain' (clusterGap thr) (cs ++ [cur]) →
      (∀ A ∈ clusterLoop thr rest cs cur, A ≠ []) ∧
        List.Chain' (clusterGap thr) (clusterLoop thr rest cs cur) ∧
        (clusterLoop thr rest cs cur).join = (cs ++ [cur]).join ++ rest := by
  intro rest
  induction rest with
  | nil =>
    intro cs cur hcur hcs hch
    refine ⟨?_, ?_, ?_⟩
    · intro A hA
      rcases List.mem_append.mp hA with h | h
      · exact hcs A h
      · rcases List.mem_singleton.mp h with rfl
        exact hcur
    · exact hch
    · simp [clusterLoop]
  | cons v rest ih =>
    intro cs cur hcur hcs hch
    unfold clusterLoop
    by_cases habs : |v - listMean cur| / max (listMean cur) (1 / 1000000000) ≤ thr
    · rw [if_pos habs]
      have hch2 : List.Chain' (clusterGap thr) (cs ++ [cur ++ [v]]) := by
        rw [List.chain'_append] at hch ⊢
        refine ⟨hch.1, List.chain'_singleton _, ?_⟩
        intro x hx y hy
        have hy2 : cur ++ [v] = y := by simpa using hy
        have := hch.2.2 x hx cur (by simp)
        subst hy2
        unfold clusterGap
        rw [headD_append cur v hcur]
        exact this
      obtain ⟨h1, h2, h3⟩ := ih cs (cur ++ [v]) (by simp) hcs hch2
      refine ⟨h1, h2, ?_⟩
      rw [h3]
      simp
    · rw [if_neg habs]
      have hcs2 : ∀ A ∈ cs ++ [cur], A ≠ [] := by
        intro A hA
        rcases List.mem_append.mp hA with h | h
        · exact hcs A h
        · rcases List.mem_singleton.mp h with rfl
          exact hcur
      have hch2 : List.Chain' (clusterGap thr) ((cs ++ [cur]) ++ [[v]]) := by
        rw [List.chain'_append]
        refine ⟨hch, List.chain'_singleton _, ?_⟩
        intro x hx y hy
        have hy2 : [v] = y := by simpa using hy
        have hx2 : cur = x := by
          rw [@List.getLast?_append_of_ne_nil _ cs [cur] (by simp)] at hx
          simpa using hx
        subst hy2 hx2
        unfold clusterGap
        simpa using habs
      obtain ⟨h1, h2, h3⟩ := ih (cs ++ [cur]) [v] (by simp) hcs2 hch2
      refine ⟨h1, h2, ?_⟩
      rw [h3]
      simp

theorem headD_le_of_sorted (B : List ℚ) (hs : List.Sorted (· ≤ ·) B) :
    ∀ x ∈ B, B.headD 0 ≤ x := by
  cases B with
  | nil => simp
  | cons b t =>
    intro x hx
    rcases List.mem_cons.mp hx with rfl | hx
    · exact le_refl _
    · exact List.rel_of_sorted_cons hs x hx

/-- Adjacent cluster means: each is below the next, with the rejection gap
transferred from the cluster boundary. -/
theorem centers_gap (thr : ℚ) :
    ∀ L : List (List ℚ), (∀ A ∈ L, A ≠ []) → List.Chain' (clusterGap thr) L →
      List.Sorted (· ≤ ·) L.join →
      List.Chain'
        (fun a b : ℚ => a ≤ b ∧ ¬ (|b - a| / max a (1 / 1000000000) ≤ thr))
        (L.map listMean) := by
  intro L
  induction L with
  | nil => intro _ _ _; simp
  | cons A L ihL =>
    intro hne hch hsort
    cases L with
    | nil => simp
    | cons B L2 =>
      have hA : A ≠ [] := hne A (by simp)
      have hB : B ≠ [] := hne B (by simp)
      have hsortA : List.Pairwise (· ≤ ·) (A ++ (B :: L2).join) := by
        simpa [List.Sorted] using hsort
      rw [List.pairwise_append] at hsortA
      obtain ⟨hsA, hsRest, hcross⟩ := hsortA
      have hsB : List.Sorted (· ≤ ·) B := by
        have : List.Pairwise (· ≤ ·) (B ++ L2.join) := by
          simpa [List.join_cons] using hsRest
        rw [List.pairwise_append] at this
        exact this.1
      have hheadB : B.headD 0 ∈ (B :: L2).join := by
        have : (B :: L2).join = B ++ L2.join := List.join_cons ..
        rw [this]
        exact List.mem_append.mpr (Or.inl (headD_mem B hB))
      have h1 : listMean A ≤ B.headD 0 :=
        listMean_le A hA _ (fun x hx => hcross x hx _ hheadB)
      have h2 : B.headD 0 ≤ listMean B :=
        le_listMean B hB _ (headD_le_of_sorted B hsB)
      obtain ⟨hgap, hchTail⟩ := List.chain'_cons.mp hch
      have hmle : listMean A ≤ listMean B := le_trans h1 h2
      have hden : (0 : ℚ) < max (listMean A) (1 / 1000000000) :=
        lt_of_lt_of_le (by norm_num) (le_max_right _ _)
      have hmgap : ¬ (|listMean B - listMean A| / max (listMean A) (1 / 1000000000) ≤ thr) := by
        intro hcon
        apply hgap
        unfold clusterGap at hgap
        rw [abs_of_nonneg (by linarith)] at hcon
        rw [abs_of_nonneg (by linarith)]
        have hstep : B.headD 0 - listMean A ≤ listMean B - listMean A := by linarith
        calc (B.headD 0 - listMean A) / max (listMean A) (1 / 1000000000)
            ≤ (listMean B - listMean A) / max (listMean A) (1 / 1000000000) :=
              (div_le_div_right hden).mpr hstep
          _ ≤ thr := hcon
      rw [List.map_cons, List.map_cons, List.chain'_cons]
      refine ⟨⟨hmle, hmgap⟩, ?_⟩
      have := ihL (fun X hX => hne X (List.mem_cons_of_mem _ hX)) hchTail (by simpa using hsRest)
      simpa using this

/-- Re-running the loop on values that pairwise fail the absorb test yields
one singleton cluster per value. -/
theorem clusterLoop_singletons (thr : ℚ) :
    ∀ (xs : List ℚ) (x : ℚ) (cs : List (List ℚ)),
      List.Chain' (fun a b : ℚ => ¬ (|b - a| / max a (1 / 1000000000) ≤ thr)) (x :: xs) →
      clusterLoop thr xs cs [x] = cs ++ (x :: xs).map (fun c => [c]) := by
  intro xs
  induction xs with
  | nil =>
    intro x cs _
    simp [clusterLoop]
  | cons y ys ih =>
    intro x cs hch
    obtain ⟨hgap, htail⟩ := List.chain'_cons.mp hch
    unfold clusterLoop
    rw [if_neg (by rw [listMean_single]; exact hgap)]
    rw [ih y (cs ++ [[x]]) htail]
    simp

/-- CLAIM C8 — Clusterer idempotence.  Re-running `_cluster_pivots` on the
cluster centers of a first run (same tolerance) merges nothing: every center
becomes its own singleton cluster, so the centers are reproduced unchanged. -/
theorem cluster_pivots_idempotent (values : List ℚ) (p : ℚ)
    (hpos : ∀ v ∈ values, 0 < v) :
    clusterPivots ((clusterPivots values p).map Prod.fst) p =
      ((clusterPivots values p).map Prod.fst).map (fun c => (c, 1)) := by
  clear hpos
  rcases hs : values.insertionSort (· ≤ ·) with _ | ⟨v, rest⟩
  · simp only [clusterPivots, hs]
    simp [clusterPivots]
  · have hsorted : List.Sorted (· ≤ ·) (values.insertionSort (· ≤ ·)) :=
      List.sorted_insertionSort (· ≤ ·) values
    rw [hs] at hsorted
    obtain ⟨hne, hch, hjoin⟩ :=
      clusterLoop_spec (p / 100) rest [] [v] (by simp) (by simp) (by simp)
    have hjoin2 : (clusterLoop (p / 100) rest [] [v]).join = v :: rest := by
      rw [hjoin]; simp
    have hchain :=
      centers_gap (p / 100) (clusterLoop (p / 100) rest [] [v]) hne hch
        (by rw [hjoin2]; exact hsorted)
    have hcenters :
        (clusterPivots values p).map Prod.fst =
          (clusterLoop (p / 100) rest [] [v]).map listMean := by
      simp only [clusterPivots, hs, List.map_map]
      rfl
    -- the centers list is nonempty
    rcases hLnil : clusterLoop (p / 100) rest [] [v] with _ | ⟨C, L2⟩
    · rw [hLnil] at hjoin2
      simp at hjoin2
    rw [hLnil] at hchain hcenters
    have hsortedCenters :
        List.Sorted (· ≤ ·) (listMean C :: (L2.map listMean)) := by
      have hle := hchain.imp (fun a b h => h.1)
      rw [List.chain'_iff_pairwise] at hle
      simpa using hle
    have hgapCenters :
        List.Chain' (fun a b : ℚ => ¬ (|b - a| / max a (1 / 1000000000) ≤ p / 100))
          (listMean C :: (L2.map listMean)) := by
      have := hchain.imp (fun a b h => h.2)
      simpa using this
    rw [hcenters]
    simp only [List.map_cons] at hsortedCenters hgapCenters ⊢
    have hsortEq :
        (listMean C :: L2.map listMean).insertionSort (· ≤ ·) =
          listMean C :: L2.map listMean :=
      List.Sorted.insertionSort_eq hsortedCenters
    have hrun2 : clusterPivots (listMean C :: L2.map listMean) p =
        (clusterLoop (p / 100) (L2.map listMean) [] [listMean C]).map
          (fun c => (listMean c, c.length)) := by
      simp only [clusterPivots, hsortEq]
    rw [hrun2, clusterLoop_singletons (p / 100) (L2.map listMean) (listMean C) [] hgapCenters]
    simp [List.map_map, listMean_single, Function.comp]

/-- CLAIM C8 witness: idempotence evaluated on the values `[1, 2]` with
tolerance `10` (two singleton clusters, reproduced by the re-run). -/
theorem cluster_pivots_idempotent_witness :
    (∀ v ∈ ([1, 2] : List ℚ), 0 < v) ∧
      clusterPivots ((clusterPivots [1, 2] 10).map Prod.fst) 10 =
        ((clusterPivots [1, 2] 10).map Prod.fst).map (fun c => (c, 1)) :=
  ⟨by norm_num, cluster_pivots_idempotent [1, 2] 10 (by norm_num)⟩

/-! ### Sticky assignment (`_assign_sticky`) -/

/-- `_same_level`: `|a − b| ≤ max(a, b) × level_tol_pct / 100`; any comparison
involving a missing value is false. -/
def sameLevel (cfg : Config) : Option ℚ → Option ℚ → Bool
  | some a, some b => decide (|a - b| ≤ max a b * (cfg.levelTolPct / 100))
  | _, _ => false

/-- A ranked candidate (`{"value": .., "count": .., "distance": ..}`). -/
structure Cand where
  value : ℚ
  count : Nat
  distance : ℚ
deriving DecidableEq, Repr

/-- The ranking order `key=lambda x: (-x["count"], x["distance"], x["value"])`. -/
def candLE (a b : Cand) : Prop :=
  b.count < a.count ∨ (b.count = a.count ∧
    (a.distance < b.distance ∨ (a.distance = b.distance ∧ a.value ≤ b.value)))

instance : DecidableRel candLE := fun a b => by
  unfold candLE
  infer_instance

/-- `rank_candidates`: build `(value, count, |value − close|)` per active zone
and stable-sort by `(-count, distance, value)`. -/
def rankCandidates (active : List Zone) (priceI : ℚ) : List Cand :=
  (active.map fun z => Cand.mk z.value z.count |z.value - priceI|).insertionSort candLE

/-- `choose_sticky`: keep the first candidate at the same level as `prev`
(step 1); otherwise consult the hysteresis test (step 2, which re-scans the
same list); otherwise switch to the top candidate (step 3). -/
def chooseSticky (cfg : Config) (priceI : ℚ) (prev : Option ℚ) (cands : List Cand) :
    Option ℚ :=
  match cands with
  | [] => none
  | best :: _ =>
    match cands.find? (fun c => sameLevel cfg prev (some c.value)) with
    | some c => some c.value
    | none =>
      match prev with
      | some p =>
        if (1 - cfg.hysteresisRatio) * |p - priceI| ≤ best.distance then
          match cands.find? (fun c => sameLevel cfg prev (some c.value)) with
          | some c => some c.value
          | none => some best.value
        else some best.value
      | none => some best.value

/-- Modelled from the claim: the simple selection that returns the first
same-level candidate if any, else the top-ranked candidate. -/
def chooseStickySimple (cfg : Config) (p : ℚ) (cands : List Cand) : Option ℚ :=
  match cands.find? (fun c => sameLevel cfg (some p) (some c.value)) with
  | some c => some c.value
  | none => cands.head?.map Cand.value

/-- One slot `k` of the per-candle loop: pick `val` (sticky choice when a
previous value exists, else the top candidate), record the first candidate at
the same level as `val` in `used`, and drop every candidate at the same level
as any used value. -/
def slotStep (cfg : Config) (priceI : ℚ) (prev : Option ℚ) (cands : List Cand)
    (used : List ℚ) : Option ℚ × List Cand × List ℚ :=
  match cands with
  | [] => (none, cands, used)
  | best :: _ =>
    let val : Option ℚ :=
      if prev.isSome then chooseSticky cfg priceI prev cands else some best.value
    let used2 :=
      match cands.find? (fun c => sameLevel cfg val (some c.value)) with
      | some c => used ++ [c.value]
      | none => used
    let cands2 :=
      cands.filter fun c => ! used2.any (fun u => sameLevel cfg (some c.value) (some u))
    (val, cands2, used2)

/-- The slot loop `for k in range(max_zones)` for one side of one candle; the
returned values are both the emitted row and the next candle's `prev`s. -/
def assignSlots (cfg : Config) (priceI : ℚ) :
    List (Option ℚ) → List Cand → List ℚ → List (Option ℚ)
  | [], _, _ => []
  | prev :: ps, cands, used =>
    let s := slotStep cfg priceI prev cands used
    s.1 :: assignSlots cfg priceI ps s.2.1 s.2.2

/-- The remaining candidate list when slot `k` is processed (the state of
`sup_cands`/`res_cands` after `k` earlier slots consumed it). -/
def slotCands (cfg : Config) (priceI : ℚ) :
    List (Option ℚ) → List Cand → List ℚ → Nat → List Cand
  | _, cands, _, 0 => cands
  | [], cands, _, _ + 1 => cands
  | pr :: ps, cands, used, k + 1 =>
    let s := slotStep cfg priceI pr cands used
    slotCands cfg priceI ps s.2.1 s.2.2 k

/-- Interval sweep step: activate zones with `x0 = i`, then deactivate (by
first-match removal, ignoring absences) zones with `x1 = i − 1`. -/
def stepActive (zs : List Zone) (i : Nat) (active : List Zone) : List Zone :=
  let added := active ++ zs.filter fun z => z.x0 == (i : Int)
  (zs.filter fun z => z.x1 + 1 == (i : Int)).foldl (fun acc z => acc.erase z) added

/-- One output row of the sweep: the per-slot support and resistance values. -/
structure Row where
  sup : List (Option ℚ)
  res : List (Option ℚ)
deriving DecidableEq, Repr

/-- The candle sweep of `_assign_sticky`. -/
def sweepGo (cfg : Config) (supZones resZones : List Zone) :
    Nat → List ℚ → List Zone → List Zone → List (Option ℚ) → List (Option ℚ) → List Row
  | _, [], _, _, _, _ => []
  | i, p :: ps, activeSup, activeRes, prevSup, prevRes =>
    let aSup := stepActive supZones i activeSup
    let aRes := stepActive resZones i activeRes
    let sup := assignSlots cfg p prevSup (rankCandidates aSup p) []
    let res := assignSlots cfg p prevRes (rankCandidates aRes p) []
    ⟨sup, res⟩ :: sweepGo cfg supZones resZones (i + 1) ps aSup aRes sup res

/-- `_assign_sticky` without the final `main_*` columns: per-candle slot
assignment rows. -/
def assignSticky (cfg : Config) (zones : List Zone) (prices : List ℚ) : List Row :=
  sweepGo cfg (zones.filter fun z => z.type == -1) (zones.filter fun z => z.type == 1)
    0 prices [] []
    (List.replicate cfg.maxZones none) (List.replicate cfg.maxZones none)

/-- `_nearest_level` for one row: the non-missing value closest to the price
(first minimiser, as `np.argmin`), `none` when every slot is missing. -/
def nearestLevel (vals : List (Option ℚ)) (p : ℚ) : Option ℚ :=
  vals.foldl
    (fun best v =>
      match v with
      | none => best
      | some x =>
        match best with
        | none => some x
        | some b => if |x - p| < |b - p| then some x else best)
    none

/-- `main_support` / `main_resistance` per candle. -/
def mainLevels (rows : List Row) (prices : List ℚ) : List (Option ℚ × Option ℚ) :=
  List.zipWith (fun r p => (nearestLevel r.sup p, nearestLevel r.res p)) rows prices

theorem chooseSticky_eq_simple (cfg : Config) (priceI p : ℚ) (cands : List Cand)
    (hne : cands ≠ []) :
    chooseSticky cfg priceI (some p) cands = chooseStickySimple cfg p cands := by
  rcases cands with _ | ⟨best, rest⟩
  · exact absurd rfl hne
  · unfold chooseSticky chooseStickySimple
    rcases hf : (best :: rest).find? (fun c => sameLevel cfg (some p) (some c.value)) with _ | c
    · simp only [hf]
      split
      · simp [hf]
      · simp
    · simp [hf]

/-- CLAIM C6 — Hysteresis branch is inert.  For a present previous value and a
non-empty candidate list, `choose_sticky` equals the simple rule "first
same-level candidate, else the top-ranked candidate": step 2's keep-`prev`
branch re-runs the same scan that step 1 already exhausted, so it can never
return, and the result does not depend on `hysteresis_ratio` (the right-hand
side never reads it). -/
theorem choose_sticky_hysteresis_inert (cfg : Config) (priceI p : ℚ) (cands : List Cand)
    (hne : cands ≠ []) :
    chooseSticky cfg priceI (some p) cands = chooseStickySimple cfg p cands :=
  chooseSticky_eq_simple cfg priceI p cands hne

/-- CLAIM C6 witness: evaluated on a one-candidate list. -/
theorem choose_sticky_hysteresis_inert_witness :
    ([⟨100, 1, 2⟩] : List Cand) ≠ [] ∧
      chooseSticky cfgPct 100 (some 100) [⟨100, 1, 2⟩] =
        chooseStickySimple cfgPct 100 [⟨100, 1, 2⟩] :=
  ⟨by simp, choose_sticky_hysteresis_inert cfgPct 100 100 [⟨100, 1, 2⟩] (by simp)⟩

/-! ### Structural lemmas about the slot loop -/

theorem sameLevel_symm (cfg : Config) (a b : Option ℚ) :
    sameLevel cfg a b = sameLevel cfg b a := by
  rcases a with _ | a <;> rcases b with _ | b <;> simp [sameLevel]
  rw [abs_sub_comm, max_comm]

theorem sameLevel_self (cfg : Config) (v : ℚ) (hv : 0 ≤ v) (htol : 0 ≤ cfg.levelTolPct) :
    sameLevel cfg (some v) (some v) = true := by
  simp only [sameLevel, decide_eq_true_iff]
  rw [sub_self, abs_zero, max_self]
  positivity

theorem slotStep_fst_nil (cfg : Config) (priceI : ℚ) (prev : Option ℚ) (used : List ℚ) :
    slotStep cfg priceI prev [] used = (none, [], used) :=
  rfl

theorem slotStep_fst_cons_none (cfg : Config) (priceI : ℚ) (best : Cand) (rest : List Cand)
    (used : List ℚ) :
    (slotStep cfg priceI none (best :: rest) used).1 = some best.value := by
  simp [slotStep]

theorem slotStep_fst_cons_some (cfg : Config) (priceI p : ℚ) (best : Cand) (rest : List Cand)
    (used : List ℚ) :
    (slotStep cfg priceI (some p) (best :: rest) used).1 =
      chooseSticky cfg priceI (some p) (best :: rest) := by
  simp [slotStep]

theorem slotStep_cands_subset (cfg : Config) (priceI : ℚ) (prev : Option ℚ)
    (cands : List Cand) (used : List ℚ) :
    ∀ c ∈ (slotStep cfg priceI prev cands used).2.1, c ∈ cands := by
  rcases cands with _ | ⟨best, rest⟩
  · intro c hc
    simp [slotStep] at hc
  · intro c hc
    simp only [slotStep] at hc
    exact List.mem_of_mem_filter hc

theorem chooseSticky_nil (cfg : Config) (priceI : ℚ) (prev : Option ℚ) :
    chooseSticky cfg priceI prev [] = none :=
  rfl

theorem chooseSticky_none (cfg : Config) (priceI : ℚ) (best : Cand) (rest : List Cand) :
    chooseSticky cfg priceI none (best :: rest) = some best.value := by
  unfold chooseSticky
  have hf : (best :: rest).find? (fun c => sameLevel cfg none (some c.value)) = none := by
    apply List.find?_eq_none.mpr
    intro c _
    simp [sameLevel]
  rw [hf]

theorem chooseStickySimple_value_mem (cfg : Config) (p : ℚ) (cands : List Cand) (v : ℚ)
    (h : chooseStickySimple cfg p cands = some v) :
    ∃ c ∈ cands, c.value = v := by
  unfold chooseStickySimple at h
  rcases hf : cands.find? (fun c => sameLevel cfg (some p) (some c.value)) with _ | c
  · rw [hf] at h
    rcases cands with _ | ⟨best, rest⟩
    · simp at h
    · exact ⟨best, by simp, by simpa using h⟩
  · rw [hf] at h
    exact ⟨c, List.mem_of_find?_eq_some hf, by simpa using h⟩

theorem chooseSticky_value_mem (cfg : Config) (priceI : ℚ) (prev : Option ℚ)
    (cands : List Cand) (v : ℚ) (h : chooseSticky cfg priceI prev cands = some v) :
    ∃ c ∈ cands, c.value = v := by
  rcases cands with _ | ⟨best, rest⟩
  · rw [chooseSticky_nil] at h
    simp at h
  · rcases prev with _ | p
    · rw [chooseSticky_none] at h
      exact ⟨best, by simp, by simpa using h⟩
    · rw [chooseSticky_eq_simple cfg priceI p (best :: rest) (by simp)] at h
      exact chooseStickySimple_value_mem cfg p (best :: rest) v h

/-- Every value a slot emits is the value of one of the slot's candidates. -/
theorem assignSlots_value_mem (cfg : Config) (priceI : ℚ) :
    ∀ (prevs : List (Option ℚ)) (cands : List Cand) (used : List ℚ) (k : Nat) (v : ℚ),
      (assignSlots cfg priceI prevs cands used).get? k = some (some v) →
      ∃ c ∈ cands, c.value = v := by
  intro prevs
  induction prevs with
  | nil => intro cands used k v h; simp [assignSlots] at h
  | cons pr ps ih =>
    intro cands used k v h
    simp only [assignSlots] at h
    cases k with
    | zero =>
      simp only [List.get?_cons_zero, Option.some_inj] at h
      rcases cands with _ | ⟨best, rest⟩
      · rw [slotStep_fst_nil] at h
        simp at h
      · rcases pr with _ | p
        · rw [slotStep_fst_cons_none] at h
          exact ⟨best, by simp, by simpa using h⟩
        · rw [slotStep_fst_cons_some] at h
          exact chooseSticky_value_mem cfg priceI (some p) (best :: rest) v h
    | succ k =>
      rw [List.get?_cons_succ] at h
      obtain ⟨c, hc, hcv⟩ := ih _ _ k v h
      exact ⟨c, slotStep_cands_subset cfg priceI pr cands used c hc, hcv⟩

/-- CLAIM C4 amended — sticky re-selection.  If slot `k`'s previous value `p`
is present and the remaining candidate list at slot `k` still contains a
candidate at the same level as `p`, then the slot emits the value of the
first-ranked such candidate (a value at the same level as `p` within
`level_tol_pct`, but not necessarily numerically equal to `p`).  The sweep
passes the previous candle's emitted row as `prevs`, so `prevs.get? k` is slot
`k`'s value at candle `i − 1`. -/
theorem sticky_slot_reselects_same_level (cfg : Config) (priceI : ℚ) :
    ∀ (k : Nat) (prevs : List (Option ℚ)) (cands : List Cand) (used : List ℚ) (p : ℚ)
      (c : Cand),
      prevs.get? k = some (some p) →
      (slotCands cfg priceI prevs cands used k).find?
          (fun c => sameLevel cfg (some p) (some c.value)) = some c →
      (assignSlots cfg priceI prevs cands used).get? k = some (some c.value) ∧
        sameLevel cfg (some p) (some c.value) = true := by
  intro k
  induction k with
  | zero =>
    intro prevs cands used p c hprev hfind
    rcases prevs with _ | ⟨pr, ps⟩
    · simp at hprev
    · have hpr : pr = some p := by simpa using hprev
      subst hpr
      simp only [slotCands] at hfind
      rcases cands with _ | ⟨best, rest⟩
      · simp at hfind
      · refine ⟨?_, by have := List.find?_some hfind; simpa using this⟩
        simp only [assignSlots, List.get?_cons_zero, Option.some_inj]
        rw [slotStep_fst_cons_some]
        unfold chooseSticky
        rw [hfind]
  | succ k ih =>
    intro prevs cands used p c hprev hfind
    rcases prevs with _ | ⟨pr, ps⟩
    · simp at hprev
    · have hprev2 : ps.get? k = some (some p) := by simpa using hprev
      simp only [slotCands] at hfind
      simp only [assignSlots, List.get?_cons_succ]
      exact ih ps _ _ p c hprev2 hfind

/-- After a slot with no previous value emits the top candidate, every
surviving candidate is at a different level from it (the emitted value is its
own `used` marker in this case). -/
theorem slotStep_cons_none_cands (cfg : Config) (priceI : ℚ) (best : Cand) (rest : List Cand)
    (used : List ℚ) (hb : 0 ≤ best.value) (htol : 0 ≤ cfg.levelTolPct) :
    ∀ c ∈ (slotStep cfg priceI none (best :: rest) used).2.1,
      sameLevel cfg (some c.value) (some best.value) = false := by
  intro c hc
  have hfind : (best :: rest).find?
      (fun c => sameLevel cfg (some best.value) (some c.value)) = some best := by
    have hself := sameLevel_self cfg best.value hb htol
    simp [List.find?_cons, hself]
  simp only [slotStep, Option.isSome_none, Bool.false_eq_true, if_false] at hc
  simp only [hfind] at hc
  have hkeep := (List.mem_filter.mp hc).2
  rw [Bool.not_eq_true'] at hkeep
  have := List.any_eq_false.mp hkeep best.value (by simp)
  simpa using this

/-- CLAIM C5 amended — no duplicate slots from a fresh state.  At any candle
where every slot of a side has no previous value (as at the first candle, where
the sweep starts from all-absent memories), no two present emitted slot values
are the same level.  (With present previous values the invariant can fail: the
`used` marker recorded for a slot may differ from the slot's emitted value, and
same-level is not transitive.) -/
theorem assign_slots_fresh_no_duplicates (cfg : Config) (priceI : ℚ)
    (htol : 0 ≤ cfg.levelTolPct) :
    ∀ (m : Nat) (cands : List Cand) (used : List ℚ),
      (∀ c ∈ cands, 0 ≤ c.value) →
      ∀ j k vj vk, j < k →
        (assignSlots cfg priceI (List.replicate m none) cands used).get? j =
          some (some vj) →
        (assignSlots cfg priceI (List.replicate m none) cands used).get? k =
          some (some vk) →
        sameLevel cfg (some vj) (some vk) = false := by
  intro m
  induction m with
  | zero =>
    intro cands used _ j k vj vk _ hj _
    simp [assignSlots] at hj
  | succ m ih =>
    intro cands used hv j k vj vk hjk hj hk
    rw [List.replicate_succ] at hj hk
    simp only [assignSlots] at hj hk
    rcases cands with _ | ⟨best, rest⟩
    · rw [slotStep_fst_nil] at hj hk
      cases j with
      | zero => simp at hj
      | succ j2 =>
        cases k with
        | zero => omega
        | succ k2 =>
          simp only [List.get?_cons_succ] at hj hk
          exact ih [] used (by simp) j2 k2 vj vk (by omega) hj hk
    · cases j with
      | zero =>
        rw [List.get?_cons_zero] at hj
        rw [slotStep_fst_cons_none] at hj
        have hvj : best.value = vj := by simpa using hj
        cases k with
        | zero => omega
        | succ k2 =>
          rw [List.get?_cons_succ] at hk
          obtain ⟨c, hc, hcv⟩ := assignSlots_value_mem cfg priceI _ _ _ k2 vk hk
          have hdiff := slotStep_cons_none_cands cfg priceI best rest used
            (hv best (by simp)) htol c hc
          rw [hcv, hvj] at hdiff
          rw [sameLevel_symm]
          exact hdiff
      | succ j2 =>
        cases k with
        | zero => omega
        | succ k2 =>
          rw [List.get?_cons_succ] at hj hk
          refine ih _ _ ?_ j2 k2 vj vk (by omega) hj hk
          intro c hc
          exact hv c (slotStep_cands_subset cfg priceI none (best :: rest) used c hc)

/-! ### A concrete sweep exhibiting sticky re-selection and duplicate levels

Four support zones (values 6, 2, 4, 6; level tolerance 50%): zone 6 is active
alone at candle 0, zones 2/4/6 at candle 1.  At candle 1, slot 1's previous
value 6 is re-selected as the same-level candidate 4; the surviving candidate 6
then fills slot 2, at the same level as 4. -/

def cfgC45 : Config := { cfgPct with maxZones := 2, levelTolPct := 50 }

def zonesC : List Zone :=
  [⟨-1, 6, 0, 0, 7, false⟩, ⟨-1, 2, 1, 1, 9, false⟩,
   ⟨-1, 4, 1, 1, 8, false⟩, ⟨-1, 6, 1, 1, 6, false⟩]

theorem cfgC45_tol : cfgC45.levelTolPct = 50 := rfl

theorem cfgC45_hys : cfgC45.hysteresisRatio = 1 / 4 := rfl

theorem cfgC45_max : cfgC45.maxZones = 2 := rfl

theorem zonesC_supFilter : zonesC.filter (fun z => z.type == -1) = zonesC := by
  norm_num [zonesC]

theorem zonesC_resFilter : zonesC.filter (fun z => z.type == 1) = [] := by
  norm_num [zonesC]

theorem stepActive_nil (i : Nat) (a : List Zone) : stepActive [] i a = a := by
  simp [stepActive]

theorem rankCandidates_nil (p : ℚ) : rankCandidates [] p = [] := rfl

theorem zonesC_step0 : stepActive zonesC 0 [] = [⟨-1, 6, 0, 0, 7, false⟩] := by
  norm_num [stepActive, zonesC]

theorem zonesC_step1 :
    stepActive zonesC 1 [⟨-1, 6, 0, 0, 7, false⟩] =
      [⟨-1, 2, 1, 1, 9, false⟩, ⟨-1, 4, 1, 1, 8, false⟩, ⟨-1, 6, 1, 1, 6, false⟩] := by
  norm_num [stepActive, zonesC, List.erase_cons, Zone.mk.injEq]

theorem zonesC_rank0 : rankCandidates [⟨-1, 6, 0, 0, 7, false⟩] 4 = [⟨6, 7, 2⟩] := by
  norm_num [rankCandidates, candLE]

theorem zonesC_rank1 :
    rankCandidates
      [⟨-1, 2, 1, 1, 9, false⟩, ⟨-1, 4, 1, 1, 8, false⟩, ⟨-1, 6, 1, 1, 6, false⟩] 4 =
      [⟨2, 9, 2⟩, ⟨4, 8, 0⟩, ⟨6, 6, 2⟩] := by
  norm_num [rankCandidates, candLE]

theorem zonesC_slot0a : slotStep cfgC45 4 none [⟨6, 7, 2⟩] [] = (some 6, [], [6]) := by
  norm_num [slotStep, sameLevel, cfgC45_tol, max_def]

theorem zonesC_assign0 :
    assignSlots cfgC45 4 [none, none] [⟨6, 7, 2⟩] [] = [some 6, none] := by
  simp only [assignSlots, zonesC_slot0a, slotStep_fst_nil]

theorem zonesC_choose1 :
    chooseSticky cfgC45 4 (some 6) [⟨2, 9, 2⟩, ⟨4, 8, 0⟩, ⟨6, 6, 2⟩] = some 4 := by
  rw [chooseSticky_eq_simple cfgC45 4 6 _ (by simp)]
  norm_num [chooseStickySimple, sameLevel, cfgC45_tol, max_def, List.find?]

theorem zonesC_slot1a :
    slotStep cfgC45 4 (some 6) [⟨2, 9, 2⟩, ⟨4, 8, 0⟩, ⟨6, 6, 2⟩] [] =
      (some 4, [⟨6, 6, 2⟩], [2]) := by
  norm_num [slotStep, zonesC_choose1, sameLevel, cfgC45_tol, max_def]

theorem zonesC_slot1b : slotStep cfgC45 4 none [⟨6, 6, 2⟩] [2] = (some 6, [], [2, 6]) := by
  norm_num [slotStep, sameLevel, cfgC45_tol, max_def]

theorem zonesC_assign1 :
    assignSlots cfgC45 4 [some 6, none] [⟨2, 9, 2⟩, ⟨4, 8, 0⟩, ⟨6, 6, 2⟩] [] =
      [some 4, some 6] := by
  simp only [assignSlots, zonesC_slot1a, zonesC_slot1b, slotStep_fst_nil]

theorem assignSlots_two_none (cfg : Config) (p : ℚ) :
    assignSlots cfg p [none, none] [] [] = [none, none] := by
  simp only [assignSlots, slotStep_fst_nil]

theorem zonesC_rows :
    assignSticky cfgC45 zonesC [4, 4] =
      [⟨[some 6, none], [none, none]⟩, ⟨[some 4, some 6], [none, none]⟩] := by
  have hrep : List.replicate cfgC45.maxZones (none : Option ℚ) = [none, none] := rfl
  simp only [assignSticky, zonesC_supFilter, zonesC_resFilter, hrep]
  simp only [sweepGo, zero_add, stepActive_nil, rankCandidates_nil, zonesC_step0,
    zonesC_rank0, zonesC_assign0, assignSlots_two_none, zonesC_step1, zonesC_rank1,
    zonesC_assign1]

/-- CLAIM C4 counterexample.  On the concrete sweep above, at candle 1, slot
1's previous value 6 is present, the candidate 4 at the same level as 6
remains among the active candidates, and the best remaining candidate (value 2,
distance 2) improves the distance to the close (price 4) by less than
`hysteresis_ratio = 1/4` — yet the emitted slot value is 4, the re-selected
candidate's value, not the previous value 6. -/
theorem stickiness_law_counterexample :
    assignSticky cfgC45 zonesC [4, 4] =
        [⟨[some 6, none], [none, none]⟩, ⟨[some 4, some 6], [none, none]⟩] ∧
      sameLevel cfgC45 (some 6) (some 4) = true ∧
      ((1 : ℚ) - cfgC45.hysteresisRatio) * |(6 : ℚ) - 4| ≤ |(2 : ℚ) - 4| ∧
      (rankCandidates (stepActive (zonesC.filter fun z => z.type == -1) 1
          (stepActive (zonesC.filter fun z => z.type == -1) 0 [])) 4).map Cand.value =
        [2, 4, 6] ∧
      some (4 : ℚ) ≠ some (6 : ℚ) := by
  refine ⟨zonesC_rows, ?_, ?_, ?_, ?_⟩
  · norm_num [sameLevel, cfgC45_tol, max_def]
  · rw [cfgC45_hys]
    norm_num
  · rw [zonesC_supFilter, zonesC_step0, zonesC_step1, zonesC_rank1]
    norm_num
  · simp

/-- CLAIM C4 amended witness: the re-selection law evaluated on a one-slot
instance (previous value 6, single candidate 4 at the same level). -/
theorem sticky_slot_reselects_same_level_witness :
    ([some 6] : List (Option ℚ)).get? 0 = some (some 6) ∧
      (slotCands cfgC45 4 [some 6] [⟨4, 8, 0⟩] [] 0).find?
          (fun c => sameLevel cfgC45 (some 6) (some c.value)) = some ⟨4, 8, 0⟩ ∧
      ((assignSlots cfgC45 4 [some 6] [⟨4, 8, 0⟩] []).get? 0 = some (some ((4 : ℚ))) ∧
        sameLevel cfgC45 (some 6) (some ((4 : ℚ))) = true) := by
  have hfind : (slotCands cfgC45 4 [some 6] [⟨4, 8, 0⟩] [] 0).find?
      (fun c => sameLevel cfgC45 (some 6) (some c.value)) = some ⟨4, 8, 0⟩ := by
    norm_num [slotCands, sameLevel, cfgC45_tol, max_def, List.find?]
  exact ⟨rfl, hfind,
    sticky_slot_reselects_same_level cfgC45 4 0 [some 6] [⟨4, 8, 0⟩] [] 6 ⟨4, 8, 0⟩ rfl hfind⟩

/-- CLAIM C5 counterexample.  On the concrete sweep above, candle 1 emits
support slot values 4 and 6 in distinct slots, both present, and
`|4 − 6| = 2 ≤ max(4,6) × 50/100 = 3`: two assigned slots of one side hold
values within `level_tol_pct` of each other. -/
theorem no_duplicate_slots_counterexample :
    assignSticky cfgC45 zonesC [4, 4] =
        [⟨[some 6, none], [none, none]⟩, ⟨[some 4, some 6], [none, none]⟩] ∧
      sameLevel cfgC45 (some 4) (some 6) = true ∧
      ¬ (|(4 : ℚ) - 6| > max (4 : ℚ) 6 * (cfgC45.levelTolPct / 100)) := by
  refine ⟨zonesC_rows, ?_, ?_⟩
  · norm_num [sameLevel, cfgC45_tol, max_def]
  · rw [cfgC45_tol]
    norm_num

/-- CLAIM C5 amended witness: the fresh-state no-duplicates law evaluated on
two candidates at genuinely different levels. -/
theorem assign_slots_fresh_no_duplicates_witness :
    (0 ≤ cfgC45.levelTolPct) ∧
      (∀ c ∈ ([⟨2, 5, 2⟩, ⟨9, 4, 5⟩] : List Cand), 0 ≤ c.value) ∧
      (0 : Nat) < 1 ∧
      (assignSlots cfgC45 4 (List.replicate 2 none) [⟨2, 5, 2⟩, ⟨9, 4, 5⟩] []).get? 0 =
        some (some 2) ∧
      (assignSlots cfgC45 4 (List.replicate 2 none) [⟨2, 5, 2⟩, ⟨9, 4, 5⟩] []).get? 1 =
        some (some 9) ∧
      sameLevel cfgC45 (some 2) (some 9) = false := by
  have hs1 : slotStep cfgC45 4 none [⟨2, 5, 2⟩, ⟨9, 4, 5⟩] [] =
      (some 2, [⟨9, 4, 5⟩], [2]) := by
    norm_num [slotStep, sameLevel, cfgC45_tol, max_def]
  have hs2 : slotStep cfgC45 4 none [⟨9, 4, 5⟩] [2] = (some 9, [], [2, 9]) := by
    norm_num [slotStep, sameLevel, cfgC45_tol, max_def]
  have hall : assignSlots cfgC45 4 (List.replicate 2 none) [⟨2, 5, 2⟩, ⟨9, 4, 5⟩] [] =
      [some 2, some 9] := by
    have hrep : List.replicate 2 (none : Option ℚ) = [none, none] := rfl
    rw [hrep]
    simp only [assignSlots, hs1, hs2]
  have h0 : (assignSlots cfgC45 4 (List.replicate 2 none) [⟨2, 5, 2⟩, ⟨9, 4, 5⟩] []).get? 0 =
      some (some 2) := by rw [hall]; rfl
  have h1 : (assignSlots cfgC45 4 (List.replicate 2 none) [⟨2, 5, 2⟩, ⟨9, 4, 5⟩] []).get? 1 =
      some (some 9) := by rw [hall]; rfl
  have hvals : ∀ c ∈ ([⟨2, 5, 2⟩, ⟨9, 4, 5⟩] : List Cand), 0 ≤ c.value := by
    intro c hc
    simp only [List.mem_cons, List.not_mem_nil, or_false] at hc
    rcases hc with rfl | rfl <;> norm_num
  refine ⟨by rw [cfgC45_tol]; norm_num, hvals, by norm_num, h0, h1, ?_⟩
  exact assign_slots_fresh_no_duplicates cfgC45 4 (by rw [cfgC45_tol]; norm_num) 2
    [⟨2, 5, 2⟩, ⟨9, 4, 5⟩] [] hvals 0 1 2 9 (by norm_num) h0 h1

/-! ### The interval sweep reaches exactly the zones active at each candle -/

theorem count_filter_eq {α : Type} [DecidableEq α] (p : α → Bool) (l : List α) (a : α) :
    (l.filter p).count a = if p a = true then l.count a else 0 := by
  induction l with
  | nil => simp
  | cons x xs ih =>
    rw [List.filter_cons]
    by_cases hpx : p x = true
    · rw [if_pos hpx, List.count_cons, List.count_cons, ih]
      by_cases hpa : p a = true
      · rw [if_pos hpa, if_pos hpa]
      · rw [if_neg hpa, if_neg hpa]
        have hbeq : (x == a) = false := by
          simp only [beq_eq_false_iff_ne]
          intro hh
          subst hh
          exact hpa hpx
        rw [hbeq]
        simp
    · rw [if_neg hpx, ih]
      by_cases hpa : p a = true
      · rw [if_pos hpa, if_pos hpa, List.count_cons]
        have hbeq : (x == a) = false := by
          simp only [beq_eq_false_iff_ne]
          intro hh
          subst hh
          exact hpx hpa
        rw [hbeq]
        simp
      · rw [if_neg hpa, if_neg hpa]

theorem count_foldl_erase {α : Type} [DecidableEq α] :
    ∀ (E l : List α) (a : α),
      (E.foldl (fun acc z => acc.erase z) l).count a = l.count a - E.count a := by
  intro E
  induction E with
  | nil => intro l a; simp
  | cons e E ih =>
    intro l a
    rw [List.foldl_cons, ih, List.count_erase, List.count_cons]
    by_cases h : (e == a) = true
    · rw [h]
      simp only [if_true]
      omega
    · have h2 : (e == a) = false := by simpa using h
      rw [h2]
      simp only [Bool.false_eq_true, if_false]
      omega

/-- One sweep step preserves the multiset invariant: after processing candle
`i`, the active list holds each zone exactly as often as the zone list does,
when `x0 ≤ i ≤ x1`, and not at all otherwise. -/
theorem stepActive_count (zs : List Zone) (i : Nat) (active : List Zone)
    (hz : ∀ z ∈ zs, 0 ≤ z.x0 ∧ z.x0 ≤ z.x1)
    (hinv : ∀ z : Zone, active.count z =
      if z.x0 ≤ (i : Int) - 1 ∧ (i : Int) - 1 ≤ z.x1 then zs.count z else 0) :
    ∀ z : Zone, (stepActive zs i active).count z =
      if z.x0 ≤ (i : Int) ∧ (i : Int) ≤ z.x1 then zs.count z else 0 := by
  intro z
  unfold stepActive
  rw [count_foldl_erase, List.count_append, count_filter_eq, count_filter_eq, hinv z]
  simp only [beq_iff_eq]
  by_cases hmem : z ∈ zs
  · obtain ⟨h0, h1⟩ := hz z hmem
    split_ifs <;> omega
  · rw [List.count_eq_zero.mpr hmem]
    simp

theorem mem_stepActive (zs : List Zone) (i : Nat) (active : List Zone)
    (hz : ∀ z ∈ zs, 0 ≤ z.x0 ∧ z.x0 ≤ z.x1)
    (hinv : ∀ z : Zone, active.count z =
      if z.x0 ≤ (i : Int) - 1 ∧ (i : Int) - 1 ≤ z.x1 then zs.count z else 0)
    (z : Zone) (hmem : z ∈ stepActive zs i active) :
    z ∈ zs ∧ z.x0 ≤ (i : Int) ∧ (i : Int) ≤ z.x1 := by
  have hcnt := stepActive_count zs i active hz hinv z
  have hpos : 0 < (stepActive zs i active).count z := List.count_pos_iff_mem.mpr hmem
  rw [hcnt] at hpos
  by_cases hcond : z.x0 ≤ (i : Int) ∧ (i : Int) ≤ z.x1
  · rw [if_pos hcond] at hpos
    exact ⟨List.count_pos_iff_mem.mp hpos, hcond.1, hcond.2⟩
  · rw [if_neg hcond] at hpos
    omega

theorem rankCandidates_mem (active : List Zone) (p : ℚ) (c : Cand)
    (hc : c ∈ rankCandidates active p) : ∃ z ∈ active, z.value = c.value := by
  unfold rankCandidates at hc
  have hmem := (List.perm_insertionSort candLE _).mem_iff.mp hc
  obtain ⟨z, hz, hzc⟩ := List.mem_map.mp hmem
  exact ⟨z, hz, by rw [← hzc]⟩

/-- Along the sweep, every value a slot emits at relative candle `j` is the
value of a zone of that side whose interval contains the candle. -/
theorem sweepGo_slot_values (cfg : Config) (supZ resZ : List Zone)
    (hzs : ∀ z ∈ supZ, 0 ≤ z.x0 ∧ z.x0 ≤ z.x1)
    (hzr : ∀ z ∈ resZ, 0 ≤ z.x0 ∧ z.x0 ≤ z.x1) :
    ∀ (ps : List ℚ) (i0 : Nat) (asup ares : List Zone) (psup pres : List (Option ℚ)),
      (∀ z : Zone, asup.count z =
        if z.x0 ≤ (i0 : Int) - 1 ∧ (i0 : Int) - 1 ≤ z.x1 then supZ.count z else 0) →
      (∀ z : Zone, ares.count z =
        if z.x0 ≤ (i0 : Int) - 1 ∧ (i0 : Int) - 1 ≤ z.x1 then resZ.count z else 0) →
      ∀ (j : Nat) (row : Row),
        (sweepGo cfg supZ resZ i0 ps asup ares psup pres).get? j = some row →
        (∀ k v, row.sup.get? k = some (some v) →
          ∃ z ∈ supZ, z.x0 ≤ ((i0 + j : Nat) : Int) ∧ ((i0 + j : Nat) : Int) ≤ z.x1 ∧
            z.value = v) ∧
        (∀ k v, row.res.get? k = some (some v) →
          ∃ z ∈ resZ, z.x0 ≤ ((i0 + j : Nat) : Int) ∧ ((i0 + j : Nat) : Int) ≤ z.x1 ∧
            z.value = v) := by
  intro ps
  induction ps with
  | nil =>
    intro i0 asup ares psup pres his hir j row hrow
    simp [sweepGo] at hrow
  | cons p ps ih =>
    intro i0 asup ares psup pres his hir j row hrow
    simp only [sweepGo] at hrow
    cases j with
    | zero =>
      rw [List.get?_cons_zero] at hrow
      obtain rfl : _ = row := Option.some.inj hrow
      constructor
      · intro k v hk
        obtain ⟨c, hcmem, hcv⟩ := assignSlots_value_mem cfg p psup _ [] k v hk
        obtain ⟨z, hzmem, hzv⟩ := rankCandidates_mem _ p c hcmem
        obtain ⟨hzz, hx0, hx1⟩ := mem_stepActive supZ i0 asup hzs his z hzmem
        refine ⟨z, hzz, ?_, ?_, by rw [hzv, hcv]⟩
        · simpa using hx0
        · simpa using hx1
      · intro k v hk
        obtain ⟨c, hcmem, hcv⟩ := assignSlots_value_mem cfg p pres _ [] k v hk
        obtain ⟨z, hzmem, hzv⟩ := rankCandidates_mem _ p c hcmem
        obtain ⟨hzz, hx0, hx1⟩ := mem_stepActive resZ i0 ares hzr hir z hzmem
        refine ⟨z, hzz, ?_, ?_, by rw [hzv, hcv]⟩
        · simpa using hx0
        · simpa using hx1
    | succ j2 =>
      rw [List.get?_cons_succ] at hrow
      have hcast : ((i0 + 1 : Nat) : Int) - 1 = (i0 : Int) := by push_cast; ring
      have his2 : ∀ z : Zone, (stepActive supZ i0 asup).count z =
          if z.x0 ≤ ((i0 + 1 : Nat) : Int) - 1 ∧ ((i0 + 1 : Nat) : Int) - 1 ≤ z.x1 then
            supZ.count z else 0 := by
        intro z
        rw [hcast]
        exact stepActive_count supZ i0 asup hzs his z
      have hir2 : ∀ z : Zone, (stepActive resZ i0 ares).count z =
          if z.x0 ≤ ((i0 + 1 : Nat) : Int) - 1 ∧ ((i0 + 1 : Nat) : Int) - 1 ≤ z.x1 then
            resZ.count z else 0 := by
        intro z
        rw [hcast]
        exact stepActive_count resZ i0 ares hzr hir z
      have hres := ih (i0 + 1) _ _ _ _ his2 hir2 j2 row hrow
      have hidx : i0 + 1 + j2 = i0 + (j2 + 1) := by omega
      rw [hidx] at hres
      exact hres

/-- `nearestLevel` only ever returns one of the listed values. -/
theorem nearestLevel_fold_mem :
    ∀ (vals : List (Option ℚ)) (p : ℚ) (best : Option ℚ) (v : ℚ),
      vals.foldl
        (fun best v =>
          match v with
          | none => best
          | some x =>
            match best with
            | none => some x
            | some b => if |x - p| < |b - p| then some x else best)
        best = some v →
      some v ∈ vals ∨ best = some v := by
  intro vals
  induction vals with
  | nil =>
    intro p best v h
    right
    exact h
  | cons x xs ih =>
    intro p best v h
    rw [List.foldl_cons] at h
    rcases ih p _ v h with hmem | hbest
    · left
      exact List.mem_cons_of_mem _ hmem
    · rcases x with _ | a
      · right
        exact hbest
      · rcases best with _ | b
        · left
          rw [← hbest]
          exact List.mem_cons_self _ _
        · have hred :
              (match some a with
                | none => some b
                | some x =>
                  match some b with
                  | none => some x
                  | some b1 => if |x - p| < |b1 - p| then some x else some b) =
                if |a - p| < |b - p| then some a else some b := rfl
          rw [hred] at hbest
          by_cases hlt : |a - p| < |b - p|
          · rw [if_pos hlt] at hbest
            left
            rw [← hbest]
            exact List.mem_cons_self _ _
          · rw [if_neg hlt] at hbest
            right
            exact hbest

theorem nearestLevel_mem (vals : List (Option ℚ)) (p : ℚ) (v : ℚ)
    (h : nearestLevel vals p = some v) : some v ∈ vals := by
  unfold nearestLevel at h
  rcases nearestLevel_fold_mem vals p none v h with h1 | h1
  · exact h1
  · simp at h1

theorem get?_zipWith {α β γ : Type} (f : α → β → γ) :
    ∀ (l1 : List α) (l2 : List β) (i : Nat) (c : γ),
      (List.zipWith f l1 l2).get? i = some c →
      ∃ a b, l1.get? i = some a ∧ l2.get? i = some b ∧ c = f a b := by
  intro l1
  induction l1 with
  | nil =>
    intro l2 i c h
    simp [List.zipWith] at h
  | cons x xs ih =>
    intro l2 i c h
    cases l2 with
    | nil => simp [List.zipWith] at h
    | cons y ys =>
      cases i with
      | zero =>
        refine ⟨x, y, rfl, rfl, ?_⟩
        rw [List.zipWith_cons_cons, List.get?_cons_zero] at h
        exact (Option.some.inj h).symm
      | succ i2 =>
        rw [List.zipWith_cons_cons, List.get?_cons_succ] at h
        obtain ⟨a, b, ha, hb, hc⟩ := ih ys i2 c h
        exact ⟨a, b, by rw [List.get?_cons_succ]; exact ha,
          by rw [List.get?_cons_succ]; exact hb, hc⟩

/-- CLAIM C9 — Assigned values come from active zones.  For zones satisfying
the interval invariant, any present slot value at candle `i` is the value of a
zone of that side whose active interval `[x0, x1]` contains `i`; and the
`main_support`/`main_resistance` value, when present, is one of the candle's
assigned slot values of that side. -/
theorem assigned_values_from_active_zones (cfg : Config) (zones : List Zone)
    (prices : List ℚ) (hz : ∀ z ∈ zones, 0 ≤ z.x0 ∧ z.x0 ≤ z.x1) (i : Nat) (row : Row)
    (hrow : (assignSticky cfg zones prices).get? i = some row) :
    (∀ k v, row.sup.get? k = some (some v) →
      ∃ z ∈ zones, z.type = -1 ∧ z.x0 ≤ (i : Int) ∧ (i : Int) ≤ z.x1 ∧ z.value = v) ∧
    (∀ k v, row.res.get? k = some (some v) →
      ∃ z ∈ zones, z.type = 1 ∧ z.x0 ≤ (i : Int) ∧ (i : Int) ≤ z.x1 ∧ z.value = v) ∧
    (∀ ms mr, (mainLevels (assignSticky cfg zones prices) prices).get? i = some (ms, mr) →
      (∀ v, ms = some v → some v ∈ row.sup) ∧ (∀ v, mr = some v → some v ∈ row.res)) := by
  have hzs : ∀ z ∈ zones.filter (fun z => z.type == -1), 0 ≤ z.x0 ∧ z.x0 ≤ z.x1 :=
    fun z hzf => hz z (List.mem_of_mem_filter hzf)
  have hzr : ∀ z ∈ zones.filter (fun z => z.type == 1), 0 ≤ z.x0 ∧ z.x0 ≤ z.x1 :=
    fun z hzf => hz z (List.mem_of_mem_filter hzf)
  have hinit : ∀ (zs : List Zone), (∀ z ∈ zs, 0 ≤ z.x0 ∧ z.x0 ≤ z.x1) →
      ∀ z : Zone, ([] : List Zone).count z =
        if z.x0 ≤ ((0 : Nat) : Int) - 1 ∧ ((0 : Nat) : Int) - 1 ≤ z.x1 then
          zs.count z else 0 := by
    intro zs hzb z
    rw [List.count_nil]
    by_cases hmem : z ∈ zs
    · rw [if_neg]
      have := (hzb z hmem).1
      push_cast
      omega
    · rw [List.count_eq_zero.mpr hmem, ite_self]
  have hmain := sweepGo_slot_values cfg (zones.filter (fun z => z.type == -1))
    (zones.filter (fun z => z.type == 1)) hzs hzr prices 0 [] []
    (List.replicate cfg.maxZones none) (List.replicate cfg.maxZones none)
    (hinit _ hzs) (hinit _ hzr) i row hrow
  obtain ⟨hsup, hres⟩ := hmain
  rw [Nat.zero_add] at hsup hres
  refine ⟨?_, ?_, ?_⟩
  · intro k v hk
    obtain ⟨z, hzf, h1, h2, h3⟩ := hsup k v hk
    obtain ⟨hzz, hty⟩ := List.mem_filter.mp hzf
    exact ⟨z, hzz, by simpa using hty, h1, h2, h3⟩
  · intro k v hk
    obtain ⟨z, hzf, h1, h2, h3⟩ := hres k v hk
    obtain ⟨hzz, hty⟩ := List.mem_filter.mp hzf
    exact ⟨z, hzz, by simpa using hty, h1, h2, h3⟩
  · intro ms mr hm
    obtain ⟨r, pr, hr, hpr, hc⟩ := get?_zipWith _ _ _ i (ms, mr) hm
    rw [hrow] at hr
    obtain rfl : row = r := Option.some.inj hr
    obtain ⟨hms, hmr⟩ := Prod.mk.injEq .. ▸ hc
    constructor
    · intro v hv
      apply nearestLevel_mem row.sup pr v
      rw [← hms, ← hv]
    · intro v hv
      apply nearestLevel_mem row.res pr v
      rw [← hmr, ← hv]

/-- A one-zone instance for the C9 witness. -/
def zonesW : List Zone := [⟨-1, 5, 0, 0, 3, false⟩]

theorem zonesW_supFilter : zonesW.filter (fun z => z.type == -1) = zonesW := by
  norm_num [zonesW]

theorem zonesW_resFilter : zonesW.filter (fun z => z.type == 1) = [] := by
  norm_num [zonesW]

theorem zonesW_step0 : stepActive zonesW 0 [] = zonesW := by
  norm_num [stepActive, zonesW]

theorem zonesW_rank : rankCandidates zonesW 5 = [⟨5, 3, 0⟩] := by
  norm_num [rankCandidates, zonesW, candLE]

theorem zonesW_slot : slotStep cfgC45 5 none [⟨5, 3, 0⟩] [] = (some 5, [], [5]) := by
  norm_num [slotStep, sameLevel, cfgC45_tol, max_def]

theorem zonesW_assign : assignSlots cfgC45 5 [none, none] [⟨5, 3, 0⟩] [] = [some 5, none] := by
  simp only [assignSlots, zonesW_slot, slotStep_fst_nil]

theorem zonesW_rows :
    assignSticky cfgC45 zonesW [5] = [⟨[some 5, none], [none, none]⟩] := by
  have hrep : List.replicate cfgC45.maxZones (none : Option ℚ) = [none, none] := rfl
  simp only [assignSticky, zonesW_supFilter, zonesW_resFilter, hrep]
  simp only [sweepGo, zonesW_step0, stepActive_nil, rankCandidates_nil, zonesW_rank,
    zonesW_assign, assignSlots_two_none]

/-- CLAIM C9 witness: the active-zone origin of slot values, evaluated on a
single support zone with value 5 active at candle 0. -/
theorem assigned_values_from_active_zones_witness :
    (∀ z ∈ zonesW, 0 ≤ z.x0 ∧ z.x0 ≤ z.x1) ∧
      (assignSticky cfgC45 zonesW [5]).get? 0 = some ⟨[some 5, none], [none, none]⟩ ∧
      (∃ z ∈ zonesW, z.type = -1 ∧ z.x0 ≤ ((0 : Nat) : Int) ∧ ((0 : Nat) : Int) ≤ z.x1 ∧
        z.value = 5) := by
  have hz : ∀ z ∈ zonesW, 0 ≤ z.x0 ∧ z.x0 ≤ z.x1 := by
    intro z hzm
    simp only [zonesW, List.mem_singleton] at hzm
    subst hzm
    norm_num
  have hrow : (assignSticky cfgC45 zonesW [5]).get? 0 =
      some ⟨[some 5, none], [none, none]⟩ := by
    rw [zonesW_rows]
    rfl
  exact ⟨hz, hrow,
    (assigned_values_from_active_zones cfgC45 zonesW [5] hz 0 _ hrow).1 0 5 rfl⟩

/-! ### Adaptive tuning and the zone builder (`_token_config`, `_tf_tuning`,
`_build_zones`, `_merge_close_breaks`) -/

structure TokenCfg where
  clusterZonePct : ℚ
  breakZonePct : ℚ
  minPivots : Nat
deriving Repr

/-- `_token_config`: tuning profile by price magnitude. -/
def tokenConfig (priceLevel : ℚ) : TokenCfg :=
  if priceLevel < 1 / 1000 then ⟨3, 2, 2⟩
  else if priceLevel < 1 then ⟨2, 1, 2⟩
  else if priceLevel < 100 then ⟨3 / 2, 1, 3⟩
  else ⟨1, 4 / 5, 3⟩

structure TfCfg where
  confirm : Nat
  bandPct : ℚ
  bandAtrMult : ℚ
deriving Repr

/-- `_tf_tuning`: raise confirmation count and band parameters by timeframe. -/
def tfTuning (cfg : Config) : TfCfg :=
  match cfg.timeframe with
  | TF.s1 | TF.m1 | TF.m5 =>
    ⟨max cfg.confirmationCandles 3, max cfg.bandPct (1 / 4), max cfg.bandAtrMult (6 / 5)⟩
  | TF.m15 | TF.h1 =>
    ⟨max cfg.confirmationCandles 2, max cfg.bandPct (1 / 5), max cfg.bandAtrMult 1⟩
  | TF.h4 | TF.d1 =>
    ⟨max cfg.confirmationCandles 2, max cfg.bandPct (3 / 20), max cfg.bandAtrMult (9 / 10)⟩
  | TF.w1 | TF.mn1 =>
    ⟨max cfg.confirmationCandles 1, max cfg.bandPct (1 / 10), max cfg.bandAtrMult (4 / 5)⟩
  | TF.unknown => ⟨cfg.confirmationCandles, cfg.bandPct, cfg.bandAtrMult⟩

/-- `pandas.Series.median`: middle of the sorted values, or the mean of the two
middles for an even count (the empty-series case is never consulted: the
builder returns early when there are no pivots). -/
def medianQ (xs : List ℚ) : ℚ :=
  let s := xs.insertionSort (· ≤ ·)
  if xs.length % 2 = 1 then s.getD (xs.length / 2) 0
  else (s.getD (xs.length / 2 - 1) 0 + s.getD (xs.length / 2) 0) / 2

/-- The ternary `isPivot` column written by `_detect_pivots`. -/
def pivotLabels (cfg : Config) (candles : List Candle) : List Int :=
  (List.range candles.length).map (isPivotAt candles cfg.pivotWindow)

/-- `DataFrame.sort_values(["x1", "type", "value"])` order. -/
def zoneLE (a b : Zone) : Prop :=
  a.x1 < b.x1 ∨ (a.x1 = b.x1 ∧ (a.type < b.type ∨ (a.type = b.type ∧ a.value ≤ b.value)))

instance : DecidableRel zoneLE := fun a b => by
  unfold zoneLE
  infer_instance

/-- The merge test of `_merge_close_breaks`: same side, end positions within
`merge_breaks_min_sep`, values within 1%. -/
def mergeable (sep : Nat) (prev curr : Zone) : Bool :=
  (curr.type == prev.type) && decide (curr.x1 - prev.x1 ≤ (sep : Int)) &&
    decide (|curr.value - prev.value| / max curr.value (1 / 1000000000) < 1 / 100)

/-- Row `i` of the sorted zone frame after the merge pass: its `x1` is
extended when row `i + 1` merges into it (the comparisons of the source read
only pre-mutation values, and a row's `x1` can be extended only by its
immediate successor). -/
def extendRow (sep : Nat) (s : List Zone) (i : Nat) : Zone :=
  let z := s.getD i default
  if i + 1 < s.length ∧ mergeable sep z (s.getD (i + 1) default) = true then
    { z with x1 := max z.x1 (s.getD (i + 1) default).x1 }
  else z

/-- `_merge_close_breaks`: sort by `(x1, type, value)`, drop every row that
merges into its predecessor, extend the `x1` of rows absorbing their
successor. -/
def mergeCloseBreaks (cfg : Config) (zs : List Zone) : List Zone :=
  if zs.isEmpty ∨ cfg.mergeBreaksMinSep = 0 then zs
  else
    let s := zs.insertionSort zoneLE
    (List.range s.length).filterMap fun i =>
      if i = 0 ∨
          ¬ (mergeable cfg.mergeBreaksMinSep (s.getD (i - 1) default) (s.getD i default)
            = true) then
        some (extendRow cfg.mergeBreaksMinSep s i)
      else none

/-- The polarity (role-reversal) zone spawned by a broken base zone, when its
reversal interval starts before the end of the series. -/
def polarityZone (cfg : Config) (candles : List Candle) (atr : Nat → ℚ) (edgePct : ℚ)
    (z : Zone) : Option Zone :=
  let startRev : Int := z.x1 + 1 + (cfg.polarityCooldown : Int)
  if startRev < (candles.length : Int) then
    let y1 : Int :=
      if cfg.eternalPolarity then (candles.length : Int) - 1
      else
        let y := findBreakIndex cfg candles atr z.value
          (if z.type = -1 then Direction.up else Direction.down) startRev.toNat edgePct 1
        if y = -1 then (candles.length : Int) - 1 else y
    some ⟨if z.type = -1 then 1 else -1, z.value, startRev, y1, z.count, true⟩
  else none

/-- `_build_zones`: pivots → per-side clustering → base zones via the breakout
scanner → optional polarity zones → near-duplicate merge. -/
def buildZones (cfg : Config) (candles : List Candle) (atr : Nat → ℚ) : List Zone :=
  let labels := pivotLabels cfg candles
  if labels.all (fun t => t == 0) then []
  else
    let medianPrice := medianQ (closeList candles)
    let tcfg := tokenConfig medianPrice
    let tfcfg := tfTuning cfg
    let clusterPct := tcfg.clusterZonePct
    let edgePct :=
      (match cfg.bandMode with
        | BandMode.pct => tfcfg.bandPct
        | BandMode.atr => tcfg.breakZonePct) / 100
    let minPivots := tcfg.minPivots
    let K := tfcfg.confirm
    let supportVals :=
      ((List.range candles.length).filter fun i => labels.getD i 0 == -1).map
        fun i => (candles.getD i default).low
    let resistVals :=
      ((List.range candles.length).filter fun i => labels.getD i 0 == 1).map
        fun i => (candles.getD i default).high
    let supClusters := (clusterPivots supportVals clusterPct).filter fun vc => minPivots ≤ vc.2
    let resClusters := (clusterPivots resistVals clusterPct).filter fun vc => minPivots ≤ vc.2
    let supZones := supClusters.map fun vc =>
      Zone.mk (-1) vc.1 0 (findBreakIndex cfg candles atr vc.1 Direction.down 0 edgePct K)
        vc.2 false
    let resZones := resClusters.map fun vc =>
      Zone.mk 1 vc.1 0 (findBreakIndex cfg candles atr vc.1 Direction.up 0 edgePct K)
        vc.2 false
    let zones := supZones ++ resZones
    let zones2 :=
      if cfg.enablePolarity then
        zones ++ zones.filterMap (polarityZone cfg candles atr edgePct)
      else zones
    mergeCloseBreaks cfg zones2

theorem extendRow_bounds (sep : Nat) (s : List Zone) (B : Int)
    (hb : ∀ z ∈ s, 0 ≤ z.x0 ∧ z.x0 ≤ z.x1 ∧ z.x1 ≤ B) (i : Nat) (hi : i < s.length) :
    0 ≤ (extendRow sep s i).x0 ∧ (extendRow sep s i).x0 ≤ (extendRow sep s i).x1 ∧
      (extendRow sep s i).x1 ≤ B := by
  have hz : s.getD i default ∈ s := by
    rw [List.getD_eq_getElem _ _ hi]
    exact List.getElem_mem ..
  obtain ⟨h0, h1, h2⟩ := hb _ hz
  simp only [extendRow]
  split
  · rename_i hcond
    have hz2 : s.getD (i + 1) default ∈ s := by
      rw [List.getD_eq_getElem _ _ hcond.1]
      exact List.getElem_mem ..
    obtain ⟨g0, g1, g2⟩ := hb _ hz2
    exact ⟨h0, le_trans h1 (le_max_left _ _), max_le h2 g2⟩
  · exact ⟨h0, h1, h2⟩

/-- The near-duplicate merge preserves the interval bounds. -/
theorem mergeCloseBreaks_bounds (cfg : Config) (zs : List Zone) (B : Int)
    (hb : ∀ z ∈ zs, 0 ≤ z.x0 ∧ z.x0 ≤ z.x1 ∧ z.x1 ≤ B) :
    ∀ z ∈ mergeCloseBreaks cfg zs, 0 ≤ z.x0 ∧ z.x0 ≤ z.x1 ∧ z.x1 ≤ B := by
  intro z hz
  simp only [mergeCloseBreaks] at hz
  split at hz
  · exact hb z hz
  · obtain ⟨i, hi, hfi⟩ := List.mem_filterMap.mp hz
    rw [List.mem_range] at hi
    have hbs : ∀ w ∈ zs.insertionSort zoneLE, 0 ≤ w.x0 ∧ w.x0 ≤ w.x1 ∧ w.x1 ≤ B :=
      fun w hw => hb w ((List.perm_insertionSort zoneLE zs).mem_iff.mp hw)
    split at hfi
    · obtain rfl := Option.some.inj hfi
      exact extendRow_bounds cfg.mergeBreaksMinSep _ B hbs i hi
    · simp at hfi

theorem polarityZone_bounds (cfg : Config) (candles : List Candle) (atr : Nat → ℚ)
    (edgePct : ℚ) (hn : 1 ≤ candles.length) (z z' : Zone) (hx1 : 0 ≤ z.x1)
    (h : polarityZone cfg candles atr edgePct z = some z') :
    0 ≤ z'.x0 ∧ z'.x0 ≤ z'.x1 ∧ z'.x1 ≤ (candles.length : Int) - 1 := by
  simp only [polarityZone] at h
  by_cases hguard : (z.x1 + 1 + (cfg.polarityCooldown : Int)) < (candles.length : Int)
  · rw [if_pos hguard] at h
    obtain rfl := Option.some.inj h
    have hcool : (0 : Int) ≤ (cfg.polarityCooldown : Int) := Int.natCast_nonneg _
    set dir := (if z.type = -1 then Direction.up else Direction.down) with hdir
    obtain ⟨hy0, hy1, hy2⟩ := findBreakFrom_bounds
      (brokenAt cfg candles atr z.value dir edgePct) candles.length 1
      (z.x1 + 1 + (cfg.polarityCooldown : Int)).toNat hn
    have hlt : (z.x1 + 1 + (cfg.polarityCooldown : Int)).toNat < candles.length := by
      omega
    have hy3 := hy2 hlt
    have hyeq : findBreakIndex cfg candles atr z.value dir
        (z.x1 + 1 + (cfg.polarityCooldown : Int)).toNat edgePct 1 =
      findBreakFrom (brokenAt cfg candles atr z.value dir edgePct) candles.length 1
        (z.x1 + 1 + (cfg.polarityCooldown : Int)).toNat := rfl
    rw [← hyeq] at hy0 hy1 hy3
    refine ⟨?_, ?_, ?_⟩ <;> simp only []
    · omega
    · split
      · omega
      · split
        · omega
        · omega
    · split
      · omega
      · split
        · omega
        · omega
  · rw [if_neg hguard] at h
    simp at h

/-- CLAIM C3 — Interval validity.  For every input series of length `N ≥ 1`
and every configuration, every zone in the final set produced by
`_build_zones` — base support/resistance zones, polarity reversal zones, and
zones surviving `_merge_close_breaks` (including merge-extended ones) —
satisfies `0 ≤ x0 ≤ x1 ≤ N − 1`. -/
theorem zone_interval_validity (cfg : Config) (candles : List Candle) (atr : Nat → ℚ)
    (hn : 1 ≤ candles.length) :
    ∀ z ∈ buildZones cfg candles atr,
      0 ≤ z.x0 ∧ z.x0 ≤ z.x1 ∧ z.x1 ≤ (candles.length : Int) - 1 := by
  intro z hz
  simp only [buildZones] at hz
  split at hz
  · simp at hz
  · refine mergeCloseBreaks_bounds cfg _ _ ?_ z hz
    intro w hw
    have hbasezone : ∀ (vals : List (ℚ × Nat)) (ty : Int) (dir : Direction) (edge : ℚ)
        (K : Nat),
        ∀ w2 ∈ vals.map (fun vc =>
          Zone.mk ty vc.1 0 (findBreakIndex cfg candles atr vc.1 dir 0 edge K) vc.2 false),
          0 ≤ w2.x0 ∧ w2.x0 ≤ w2.x1 ∧ w2.x1 ≤ (candles.length : Int) - 1 := by
      intro vals ty dir edge K w2 hw2
      obtain ⟨vc, _, rfl⟩ := List.mem_map.mp hw2
      obtain ⟨h0, h1, _⟩ :=
        findBreakFrom_bounds (brokenAt cfg candles atr vc.1 dir edge) candles.length K 0 hn
      exact ⟨le_refl 0, h0, h1⟩
    split at hw
    · rcases List.mem_append.mp hw with hw2 | hw2
      · rcases List.mem_append.mp hw2 with h3 | h3
        · exact hbasezone _ _ _ _ _ _ h3
        · exact hbasezone _ _ _ _ _ _ h3
      · obtain ⟨w0, hw0, hpol⟩ := List.mem_filterMap.mp hw2
        have hb0 : 0 ≤ w0.x0 ∧ w0.x0 ≤ w0.x1 ∧ w0.x1 ≤ (candles.length : Int) - 1 := by
          rcases List.mem_append.mp hw0 with h3 | h3
          · exact hbasezone _ _ _ _ _ _ h3
          · exact hbasezone _ _ _ _ _ _ h3
        exact polarityZone_bounds cfg candles atr _ hn w0 w
          (le_trans hb0.1 hb0.2.1) hpol
    · rcases List.mem_append.mp hw with h3 | h3
      · exact hbasezone _ _ _ _ _ _ h3
      · exact hbasezone _ _ _ _ _ _ h3

/-- A concrete 5-candle series with two low pivots at value `1/2`
(window 1): the pipeline produces one support zone `[0, 4]`. -/
def candlesV : List Candle :=
  [⟨1, 3/5, 3/5⟩, ⟨2, 1/2, 3/5⟩, ⟨3, 3/5, 3/5⟩, ⟨4, 1/2, 3/5⟩, ⟨5, 3/5, 3/5⟩]

theorem cfgPct_pivotWindow : cfgPct.pivotWindow = 1 := rfl

theorem cfgPct_timeframe : cfgPct.timeframe = TF.unknown := rfl

theorem cfgPct_bandMode : cfgPct.bandMode = BandMode.pct := rfl

theorem cfgPct_enablePolarity : cfgPct.enablePolarity = false := rfl

theorem cfgPct_mergeSep : cfgPct.mergeBreaksMinSep = 0 := rfl

theorem candlesV_labels : pivotLabels cfgPct candlesV = [0, -1, 0, -1, 0] := by
  norm_num [pivotLabels, List.range_succ, isPivotAt, rollingCenterMax, rollingCenterMin,
    windowSlice, windowMax, windowMin, highList, lowList, candlesV, max_def, min_def,
    cfgPct_pivotWindow]
  simp

theorem candlesV_median : medianQ (closeList candlesV) = 3 / 5 := by
  norm_num [medianQ, closeList, candlesV]

theorem candlesV_break :
    findBreakIndex cfgPct candlesV atrZ (1 / 2) Direction.down 0 (1 / 10) 1 = 4 := by
  have h : findBreakIndex cfgPct candlesV atrZ (1 / 2) Direction.down 0 (1 / 10) 1 =
      findBreakFrom (brokenAt cfgPct candlesV atrZ (1 / 2) Direction.down (1 / 10))
        candlesV.length 1 0 := rfl
  rw [h]
  norm_num [findBreakFrom, breakLoop, brokenAt, bandAt, refPrice,
    cfgPct, candlesV, atrZ, max_def]

theorem tfTuning_cfgPct : tfTuning cfgPct = ⟨1, 10, 1⟩ := rfl

theorem candlesV_zones :
    buildZones cfgPct candlesV atrZ = [⟨-1, 1 / 2, 0, 4, 2, false⟩] := by
  simp only [buildZones, candlesV_labels, candlesV_median, tfTuning_cfgPct,
    cfgPct_bandMode, cfgPct_enablePolarity]
  norm_num [tokenConfig, List.range_succ, clusterPivots, clusterLoop, listMean,
    candlesV, mergeCloseBreaks, cfgPct_mergeSep]
  exact candlesV_break

/-- CLAIM C3 witness: the interval invariant evaluated on the one-zone
pipeline output of the concrete series. -/
theorem zone_interval_validity_witness :
    1 ≤ candlesV.length ∧
      (⟨-1, 1 / 2, 0, 4, 2, false⟩ : Zone) ∈ buildZones cfgPct candlesV atrZ ∧
      (0 : Int) ≤ (⟨-1, 1 / 2, 0, 4, 2, false⟩ : Zone).x0 ∧
      (⟨-1, 1 / 2, 0, 4, 2, false⟩ : Zone).x0 ≤ (⟨-1, 1 / 2, 0, 4, 2, false⟩ : Zone).x1 ∧
      (⟨-1, 1 / 2, 0, 4, 2, false⟩ : Zone).x1 ≤ (candlesV.length : Int) - 1 := by
  have hmem : (⟨-1, 1 / 2, 0, 4, 2, false⟩ : Zone) ∈ buildZones cfgPct candlesV atrZ := by
    rw [candlesV_zones]
    exact List.mem_singleton.mpr rfl
  have h := zone_interval_validity cfgPct candlesV atrZ (by norm_num [candlesV]) _ hmem
  exact ⟨by norm_num [candlesV], hmem, h.1, h.2.1, h.2.2⟩

end BreakoutAnalyzer
